import Mathlib

/-!
# Verification development for `paul-scrape-rs`

A shallow embedding in Lean 4 of the crawl-scheduler core (`src/main.rs`)
and the canonicalization pass (`src/bin/convertjson.rs`) of the
`paul-scrape-rs` repository, together with theorems settling the frozen
claims about the program.

Conventions of the embedding:
* Rust `String` is Lean `String` (Rust `str` ordering is byte-wise on
  UTF-8, which coincides with Lean's code-point lexicographic order).
* `reqwest::Url` is carried as an opaque `Url := String`.
* Panicking Rust operations (`unwrap`, out-of-bounds indexing,
  `panic!("Unknown month")`) are modelled with `Option`/`Except`:
  `none`/`.error` is a panic, i.e. a fatal abort with no output.
* The randomness of `Queue::pop` (`rand::thread_rng().gen_range(0..len)`)
  is modelled by an arbitrary index argument reduced modulo the length.
* The nondeterministic iteration order of Rust's `HashSet`/`HashMap`
  (`RandomState`) is modelled by an explicit enumeration-order parameter;
  the determinism theorems quantify over all enumeration orders.
* The concurrency of `main`'s tokio event loop and the spawned
  `handle_entry` tasks is modelled by an interleaving small-step
  transition relation on an explicit system state.
-/

set_option maxRecDepth 8000

namespace Paul

/-! ## Data model (`src/lib.rs`, `src/main.rs`, `src/bin/convertjson.rs`) -/

/-- Model of `reqwest::Url`, treated as an opaque string key. -/
abbrev Url := String

/-- Model of `Path { fragments: Vec<String> }` from `src/lib.rs`. -/
structure Path where
  fragments : List String
deriving DecidableEq, Repr

/-- Model of `Path::new()` from `src/lib.rs`. -/
def Path.new : Path := ⟨[]⟩

/-- Model of `Path::push` from `src/lib.rs`: immutable append returning a new `Path`. -/
def Path.push (p : Path) (fragment : String) : Path := ⟨p.fragments ++ [fragment]⟩

/-- Raw `Appointment` from `src/lib.rs`: `start_time`/`end_time` are
`(date, time)` string pairs as scraped. -/
structure Appointment where
  start_time : String × String
  end_time : String × String
  room : String
  instructors : String
deriving DecidableEq, Repr

/-- Raw `Course` from `src/lib.rs` (pre-canonicalization). -/
structure Course where
  path : Path
  instructors : String
  ou : Option String
  appointments : List Appointment
  small_groups : List String
deriving DecidableEq, Repr

/-- Model of `SmallGroup` from `src/lib.rs`. -/
structure SmallGroup where
  url : String
  path : Path
  appointments : List Appointment
deriving DecidableEq, Repr

/-- The UTC timestamp captured at crawl start, exposed through chrono's
`Datelike`/`Timelike` accessors used in `convertjson.rs`. -/
structure UtcTime where
  year : Int
  month : Nat
  day : Nat
  hour : Nat
  minute : Nat
  second : Nat
deriving DecidableEq, Repr

/-- Model of `StateSerializable` from `src/lib.rs` / `src/main.rs`: the crawl
snapshot persisted to `state.json`. -/
structure StateSerializable where
  semester : String
  start_time : UtcTime
  courses : List Course
  small_groups : List SmallGroup
deriving DecidableEq, Repr

/-- Model of `PaulineAppointment` from `src/bin/convertjson.rs`. -/
structure PaulineAppointment where
  start_time : String
  end_time : String
  room : String
  instructors : String
deriving DecidableEq, Repr

/-- Model of `PaulineSmallGroup` from `src/bin/convertjson.rs`. -/
structure PaulineSmallGroup where
  name : String
  appointments : List PaulineAppointment
deriving DecidableEq, Repr

/-- Model of `PaulineCourse` from `src/bin/convertjson.rs`; the field declaration
order (`cid`, `name`, `description`, `ou`, `instructors`, `small_groups`,
`appointments`) fixes the derived lexicographic `Ord` used by `vec.sort()`. -/
structure PaulineCourse where
  cid : String
  name : String
  description : Option String
  ou : Option String
  instructors : Option String
  small_groups : List PaulineSmallGroup
  appointments : List PaulineAppointment
deriving DecidableEq, Repr

/-- Model of `Semester` from `src/bin/convertjson.rs`: the terminal artifact. -/
structure Semester where
  name : String
  created : String
  courses : List PaulineCourse
deriving DecidableEq, Repr

/-! ## String primitives

Executable models of the Rust string operations the program uses
(`str::split`, `str::replace`, `str::lines`, `str::parse`), written over
`List Char` so that concrete inputs evaluate by kernel reduction. -/

/-- Rust `str::split(c)`: splits on every occurrence of the character,
keeping empty pieces (`"".split(c)` is `[""]`). -/
def splitOnChar (c : Char) : List Char → List (List Char)
  | [] => [[]]
  | x :: xs =>
    match splitOnChar c xs with
    | [] => [[]]
    | h :: t => if x = c then [] :: h :: t else (x :: h) :: t

/-- Fuel-driven worker for `replaceSeq`; fuel bounds the number of scan
steps so the recursion is structural. -/
def replaceSeqFuel (pat : List Char) : Nat → List Char → List Char
  | 0, l => l
  | _ + 1, [] => []
  | fuel + 1, x :: xs =>
    if (x :: xs).take pat.length = pat then
      replaceSeqFuel pat fuel ((x :: xs).drop pat.length)
    else
      x :: replaceSeqFuel pat fuel xs

/-- Rust `str::replace(pat, "")` for a non-empty pattern: removes every
(left-to-right, non-overlapping) occurrence of `pat`. -/
def replaceSeq (pat : List Char) (l : List Char) : List Char :=
  if pat = [] then l else replaceSeqFuel pat l.length l

/-- Decimal digit value of a character, `none` for non-digits. -/
def digitVal (c : Char) : Option Nat :=
  if '0' ≤ c && c ≤ '9' then some (c.toNat - 48) else none

/-- Accumulating decimal parser over characters. -/
def parseNatAux : List Char → Nat → Option Nat
  | [], acc => some acc
  | c :: cs, acc =>
    match digitVal c with
    | none => none
    | some d => parseNatAux cs (acc * 10 + d)

/-- Parse a non-empty all-digit character list as a `Nat`. -/
def parseNatChars (l : List Char) : Option Nat :=
  if l = [] then none else parseNatAux l 0

/-- Rust integer literal syntax: optional `+`/`-` sign, then at least one
ASCII digit. -/
def parseIntChars : List Char → Option Int
  | '-' :: rest => (parseNatChars rest).map (fun n => -(n : Int))
  | '+' :: rest => (parseNatChars rest).map (fun n => (n : Int))
  | l => (parseNatChars l).map (fun n => (n : Int))

/-- Rust `str::parse::<i32>()`: sign, ASCII digits, 32-bit bounds;
`none` models the `unwrap` panic on failure. -/
def parseI32 (s : String) : Option Int :=
  (parseIntChars s.data).bind fun n =>
    if n < -2147483648 || 2147483647 < n then none else some n

/-- Rust `str::lines()`: pieces delimited by `\n`, a `\r` directly before
a delimiter is stripped, and a final empty piece (trailing newline) is
dropped. -/
def rustLines (s : String) : List String :=
  let parts := splitOnChar '\n' s.data
  let strip : List Char → List Char := fun l =>
    if l.getLast? = some '\r' then l.dropLast else l
  let init := parts.dropLast.map strip
  let last := (parts.getLast?).getD []
  (if last = [] then init else init ++ [last]).map String.mk

/-! ## Time normalization (`convert_time`, `src/bin/convertjson.rs` lines 169-208) -/

/-- Rust's `{:02}` format specifier on an integer. -/
def fmt02 (n : Int) : String :=
  if 0 ≤ n && n < 10 then "0" ++ toString n else toString n

/-- The month-abbreviation table of `convert_time` (lines 187-202);
`none` models the `panic!("Unknown month")` arm. -/
def monthOfToken (tok : String) : Option Int :=
  if tok = "Jan" then some 1
  else if tok = "Feb" then some 2
  else if tok = "Mrz" then some 3
  else if tok = "Mär" then some 3
  else if tok = "Apr" then some 4
  else if tok = "Mai" then some 5
  else if tok = "Jun" then some 6
  else if tok = "Jul" then some 7
  else if tok = "Aug" then some 8
  else if tok = "Sep" then some 9
  else if tok = "Okt" then some 10
  else if tok = "Nov" then some 11
  else if tok = "Dez" then some 12
  else none

/-- Model of `convert_time(date_str, time)` (lines 169-208): splits the date on
spaces, parses day/month/year from tokens 1-3 (dots removed), rewrites a
literal `"24:00"` to `"23:59"`, and formats
`"{}-{:02}-{:02}T{}:00"` with year, month, day and the time. -/
def convert_time (date_str time : String) : Option String := do
  let split_date := (splitOnChar ' ' date_str.data).map String.mk
  let dayTok ← split_date[1]?
  let day ← parseI32 (String.mk (replaceSeq ['.'] dayTok.data))
  let monTok ← split_date[2]?
  let month ← monthOfToken (String.mk (replaceSeq ['.'] monTok.data))
  let yearTok ← split_date[3]?
  let year ← parseI32 yearTok
  let time := if time = "24:00" then "23:59" else time
  pure (toString year ++ "-" ++ fmt02 month ++ "-" ++ fmt02 day ++ "T" ++ time ++ ":00")

/-! ## SHA-256 (the `sha2::Sha256` digest used for id fingerprints)

A direct executable implementation of FIPS 180-4 SHA-256 over byte lists,
with 32-bit words as `Nat` reduced modulo `2^32`. -/

/-- The word modulus `2^32`. -/
def w32 : Nat := 4294967296

/-- Right rotation on 32 bits. -/
def rotr (n x : Nat) : Nat := ((x >>> n) ||| (x <<< (32 - n))) % w32

/-- Bitwise complement on 32 bits. -/
def not32 (x : Nat) : Nat := x ^^^ 4294967295

/-- The 64 SHA-256 round constants (FIPS 180-4, in decimal). -/
def shaK : List Nat :=
  [1116352408, 1899447441, 3049323471, 3921009573, 961987163, 1508970993,
   2453635748, 2870763221, 3624381080, 310598401, 607225278, 1426881987,
   1925078388, 2162078206, 2614888103, 3248222580, 3835390401, 4022224774,
   264347078, 604807628, 770255983, 1249150122, 1555081692, 1996064986,
   2554220882, 2821834349, 2952996808, 3210313671, 3336571891, 3584528711,
   113926993, 338241895, 666307205, 773529912, 1294757372, 1396182291,
   1695183700, 1986661051, 2177026350, 2456956037, 2730485921, 2820302411,
   3259730800, 3345764771, 3516065817, 3600352804, 4094571909, 275423344,
   430227734, 506948616, 659060556, 883997877, 958139571, 1322822218,
   1537002063, 1747873779, 1955562222, 2024104815, 2227730452, 2361852424,
   2428436474, 2756734187, 3204031479, 3329325298]

/-- The eight-word SHA-256 working state. -/
structure Hash8 where
  a : Nat
  b : Nat
  c : Nat
  d : Nat
  e : Nat
  f : Nat
  g : Nat
  h : Nat
deriving DecidableEq, Repr

/-- The SHA-256 initial hash value (FIPS 180-4, in decimal). -/
def shaH0 : Hash8 :=
  ⟨1779033703, 3144134277, 1013904242, 2773480762,
   1359893119, 2600822924, 528734635, 1541459225⟩

/-- Group bytes into big-endian 32-bit words. -/
def bytesToWords : List Nat → List Nat
  | b0 :: b1 :: b2 :: b3 :: rest =>
    ((b0 <<< 24) ||| (b1 <<< 16) ||| (b2 <<< 8) ||| b3) :: bytesToWords rest
  | _ => []

/-- SHA-256 padding: `0x80`, zeros to 56 mod 64, 8-byte big-endian bit length. -/
def padMessage (msg : List Nat) : List Nat :=
  let bitLen := msg.length * 8
  let padZeros := (119 - msg.length % 64) % 64
  msg ++ [0x80] ++ List.replicate padZeros 0 ++
    [(bitLen >>> 56) % 256, (bitLen >>> 48) % 256, (bitLen >>> 40) % 256, (bitLen >>> 32) % 256,
     (bitLen >>> 24) % 256, (bitLen >>> 16) % 256, (bitLen >>> 8) % 256, bitLen % 256]

/-- Fuel-driven 64-byte chunking. -/
def chunksFuel : Nat → List Nat → List (List Nat)
  | 0, _ => []
  | _ + 1, [] => []
  | fuel + 1, l => l.take 64 :: chunksFuel fuel (l.drop 64)

/-- Split a byte list into 64-byte chunks. -/
def chunks64 (l : List Nat) : List (List Nat) := chunksFuel l.length l

/-- Message-schedule sigma-0. -/
def smallSigma0 (x : Nat) : Nat := (rotr 7 x) ^^^ (rotr 18 x) ^^^ (x >>> 3)

/-- Message-schedule sigma-1. -/
def smallSigma1 (x : Nat) : Nat := (rotr 17 x) ^^^ (rotr 19 x) ^^^ (x >>> 10)

/-- Extend the 16-word schedule by `n` further words. -/
def extendSchedule : Nat → List Nat → List Nat
  | 0, w => w
  | n + 1, w =>
    let i := w.length
    let nw := (w.getD (i - 16) 0 + smallSigma0 (w.getD (i - 15) 0) +
               w.getD (i - 7) 0 + smallSigma1 (w.getD (i - 2) 0)) % w32
    extendSchedule n (w ++ [nw])

/-- Compression-function Sigma-0. -/
def bigSigma0 (x : Nat) : Nat := (rotr 2 x) ^^^ (rotr 13 x) ^^^ (rotr 22 x)

/-- Compression-function Sigma-1. -/
def bigSigma1 (x : Nat) : Nat := (rotr 6 x) ^^^ (rotr 11 x) ^^^ (rotr 25 x)

/-- The SHA-256 choice function. -/
def chV (x y z : Nat) : Nat := (x &&& y) ^^^ ((not32 x) &&& z)

/-- The SHA-256 majority function. -/
def majV (x y z : Nat) : Nat := (x &&& y) ^^^ (x &&& z) ^^^ (y &&& z)

/-- One compression round, consuming a `(k, w)` constant/schedule pair. -/
def roundStep (s : Hash8) (kw : Nat × Nat) : Hash8 :=
  let t1 := (s.h + bigSigma1 s.e + chV s.e s.f s.g + kw.1 + kw.2) % w32
  let t2 := (bigSigma0 s.a + majV s.a s.b s.c) % w32
  ⟨(t1 + t2) % w32, s.a, s.b, s.c, (s.d + t1) % w32, s.e, s.f, s.g⟩

/-- Process one 64-byte chunk. -/
def processChunk (h : Hash8) (chunk : List Nat) : Hash8 :=
  let w := extendSchedule 48 (bytesToWords chunk)
  let s := (shaK.zip w).foldl roundStep h
  ⟨(h.a + s.a) % w32, (h.b + s.b) % w32, (h.c + s.c) % w32, (h.d + s.d) % w32,
   (h.e + s.e) % w32, (h.f + s.f) % w32, (h.g + s.g) % w32, (h.h + s.h) % w32⟩

/-- SHA-256 digest of a byte list, as eight 32-bit words. -/
def sha256Words (msg : List Nat) : List Nat :=
  let fin := (chunks64 (padMessage msg)).foldl processChunk shaH0
  [fin.a, fin.b, fin.c, fin.d, fin.e, fin.f, fin.g, fin.h]

/-- Lowercase hexadecimal digit: `0`-`9` then `a`-`f`. -/
def hexDigit (n : Nat) : Char :=
  if n < 10 then Char.ofNat (48 + n) else Char.ofNat (87 + n)

/-- Eight lowercase hex characters of a 32-bit word, most significant first. -/
def wordToHex (x : Nat) : List Char :=
  [hexDigit ((x >>> 28) % 16), hexDigit ((x >>> 24) % 16), hexDigit ((x >>> 20) % 16),
   hexDigit ((x >>> 16) % 16), hexDigit ((x >>> 12) % 16), hexDigit ((x >>> 8) % 16),
   hexDigit ((x >>> 4) % 16), hexDigit (x % 16)]

/-- UTF-8 encoding of one character. -/
def utf8Char (c : Char) : List Nat :=
  let n := c.toNat
  if n < 0x80 then [n]
  else if n < 0x800 then
    [0xC0 ||| (n >>> 6), 0x80 ||| (n &&& 0x3F)]
  else if n < 0x10000 then
    [0xE0 ||| (n >>> 12), 0x80 ||| ((n >>> 6) &&& 0x3F), 0x80 ||| (n &&& 0x3F)]
  else
    [0xF0 ||| (n >>> 18), 0x80 ||| ((n >>> 12) &&& 0x3F),
     0x80 ||| ((n >>> 6) &&& 0x3F), 0x80 ||| (n &&& 0x3F)]

/-- Rust `str::as_bytes()`: the UTF-8 byte sequence of a string. -/
def utf8Bytes (s : String) : List Nat := s.data.flatMap utf8Char

/-- Model of `format!("{:x}", sha2::Sha256::digest(s.as_bytes()))`: the 64-character
lowercase hex fingerprint used in `convertjson.rs` line 89-92. -/
def sha256Hex (s : String) : String :=
  String.mk ((sha256Words (utf8Bytes s)).flatMap wordToHex)

/-! ## Canonicalization (`src/bin/convertjson.rs` `main`, lines 40-167)

Fatal panics (`unwrap`, indexing, unknown month) are modelled as
`Except.error` with a cause tag, so error branches are distinguishable. -/

/-- The panic sites of the canonicalization pass. -/
inductive CanonErr where
  /-- A `convert_time` panic: missing token, parse failure, unknown month. -/
  | badTime : CanonErr
  /-- `path.fragments.last().unwrap()` on an empty path. -/
  | emptyPath : CanonErr
  /-- `small_groups.get(&sg).unwrap()` on an unresolved reference (line 74). -/
  | unresolvedSmallGroup (url : String) : CanonErr
  /-- `cid_title[0]` / `cid_title[1]` out of bounds (lines 85-86). -/
  | shortFragment : CanonErr
deriving DecidableEq, Repr

/-- Model of `convert_appointment` (lines 210-224). -/
def convert_appointment (a : Appointment) : Except CanonErr PaulineAppointment :=
  match convert_time a.start_time.1 a.start_time.2, convert_time a.end_time.1 a.end_time.2 with
  | some st, some et => .ok ⟨st, et, a.room, a.instructors⟩
  | _, _ => .error .badTime

/-- Model of `convert_small_group` (lines 226-246): last path fragment with the
`"Kleingruppe:\u{a0}"` prefix removed, plus converted appointments. -/
def convert_small_group (sg : SmallGroup) : Except CanonErr PaulineSmallGroup := do
  let lastFrag ← match sg.path.fragments.getLast? with
    | none => Except.error CanonErr.emptyPath
    | some f => Except.ok f
  let name := String.mk (replaceSeq "Kleingruppe:\u00A0".data lastFrag.data)
  let appts ← sg.appointments.mapM convert_appointment
  Except.ok ⟨name, appts⟩

/-- Lines 55-59: the url-keyed small-group index, built by
`collect::<HashMap<_, _>>()`. The assoc list keeps every binding in input
order; `lookupIdx` returns the last one, matching `HashMap` collect
semantics where a later duplicate key overwrites an earlier one. -/
def buildIndex (sgs : List SmallGroup) :
    Except CanonErr (List (String × PaulineSmallGroup)) :=
  sgs.mapM fun sg => (convert_small_group sg).map fun p => (sg.url, p)

/-- Model of `HashMap::get` on the built index: the most recent binding wins. -/
def lookupIdx (idx : List (String × PaulineSmallGroup)) (u : String) :
    Option PaulineSmallGroup :=
  (idx.reverse.find? fun p => p.1 == u).map Prod.snd

/-- Lines 71-75: resolve each referenced small-group url against the
index; `unwrap` on a missing key is the `unresolvedSmallGroup` panic. -/
def resolveRefs (idx : List (String × PaulineSmallGroup)) (urls : List String) :
    Except CanonErr (List PaulineSmallGroup) :=
  urls.mapM fun u =>
    match lookupIdx idx u with
    | none => Except.error (CanonErr.unresolvedSmallGroup u)
    | some p => Except.ok p

/-- Lines 64-117, one iteration of the course loop: convert appointments,
resolve small-group references, split the last path fragment into
`(cid, name)`, and append the 2-hex-character fingerprint suffix
`"|" ++ hex(SHA-256(name ++ instructors))[..2]` to the cid. -/
def convertCourse (idx : List (String × PaulineSmallGroup)) (course : Course) :
    Except CanonErr PaulineCourse := do
  let appointments ← course.appointments.mapM convert_appointment
  let small_groups ← resolveRefs idx course.small_groups
  let lastFrag ← match course.path.fragments.getLast? with
    | none => Except.error CanonErr.emptyPath
    | some f => Except.ok f
  let cid_title := rustLines lastFrag
  let cid0 ← match cid_title[0]? with
    | none => Except.error CanonErr.shortFragment
    | some c => Except.ok c
  let name ← match cid_title[1]? with
    | none => Except.error CanonErr.shortFragment
    | some c => Except.ok c
  let name_hash := sha256Hex (name ++ course.instructors)
  let cid := cid0 ++ "|" ++ String.mk (name_hash.data.take 2)
  Except.ok ⟨cid, name, some "", course.ou, some course.instructors, small_groups, appointments⟩

/-! ### The derived `Ord` of `PaulineCourse`

Rust's `#[derive(PartialOrd, Ord)]` compares fields lexicographically in
declaration order; `String` compares byte-wise (equal to code-point
order), `Option` puts `None` first, `Vec` is lexicographic with a proper
prefix smaller. -/

/-- Rust `Ord for char`: comparison by code point. -/
def cmpChar (a b : Char) : Ordering :=
  if a.toNat < b.toNat then .lt else if b.toNat < a.toNat then .gt else .eq

/-- Rust derived `Ord` on a pair of fields. -/
def cmpProd {α β : Type} (ca : α → α → Ordering) (cb : β → β → Ordering)
    (x y : α × β) : Ordering :=
  (ca x.1 y.1).then (cb x.2 y.2)

/-- Rust `Ord for Option<T>`: `None < Some`. -/
def cmpOpt {α : Type} (c : α → α → Ordering) : Option α → Option α → Ordering
  | some a, some b => c a b
  | some _, none => .gt
  | none, some _ => .lt
  | none, none => .eq

/-- Rust `Ord for Vec<T>`: lexicographic, shorter prefix first. -/
def cmpList {α : Type} (c : α → α → Ordering) : List α → List α → Ordering
  | [], [] => .eq
  | [], _ :: _ => .lt
  | _ :: _, [] => .gt
  | a :: as, b :: bs => (c a b).then (cmpList c as bs)

/-- Rust `Ord for String`: byte-wise lexicographic comparison of the
UTF-8 encodings, which coincides with code-point lexicographic
comparison of the character sequences. -/
def cmpStr (a b : String) : Ordering := cmpList cmpChar a.data b.data

/-- The fields of `PaulineAppointment` in declaration order. -/
def appKey (a : PaulineAppointment) : String × String × String × String :=
  (a.start_time, a.end_time, a.room, a.instructors)

/-- Derived `Ord for PaulineAppointment`. -/
def cmpApp (a b : PaulineAppointment) : Ordering :=
  cmpProd cmpStr (cmpProd cmpStr (cmpProd cmpStr cmpStr)) (appKey a) (appKey b)

/-- The fields of `PaulineSmallGroup` in declaration order. -/
def sgKey (g : PaulineSmallGroup) : String × List PaulineAppointment :=
  (g.name, g.appointments)

/-- Derived `Ord for PaulineSmallGroup`. -/
def cmpSG (a b : PaulineSmallGroup) : Ordering :=
  cmpProd cmpStr (cmpList cmpApp) (sgKey a) (sgKey b)

/-- The fields of `PaulineCourse` in declaration order. -/
def courseKey (c : PaulineCourse) :
    String × String × Option String × Option String × Option String ×
      List PaulineSmallGroup × List PaulineAppointment :=
  (c.cid, c.name, c.description, c.ou, c.instructors, c.small_groups, c.appointments)

/-- Derived `Ord for PaulineCourse`: the full-record lexicographic order
used by `vec.sort()` at line 137. -/
def cmpCourse (a b : PaulineCourse) : Ordering :=
  cmpProd cmpStr (cmpProd cmpStr (cmpProd (cmpOpt cmpStr) (cmpProd (cmpOpt cmpStr)
    (cmpProd (cmpOpt cmpStr) (cmpProd (cmpList cmpSG) (cmpList cmpApp))))))
    (courseKey a) (courseKey b)

/-- The `≤` of the derived `Ord for PaulineCourse`. -/
def courseLE (a b : PaulineCourse) : Prop := cmpCourse a b ≠ .gt

instance : DecidableRel courseLE := fun a b =>
  inferInstanceAs (Decidable (cmpCourse a b ≠ .gt))

/-- Model of `vec.sort()` at line 137: a stable sort by the derived total order;
since the order is antisymmetric the sorted list is unique, so insertion
sort is an exact model. -/
def sortC (l : List PaulineCourse) : List PaulineCourse :=
  List.insertionSort courseLE l

/-- Lines 133-135: `c.cid = course.cid.clone()`, overwriting a member's
cid with the group key. -/
def resetCid (key : String) (c : PaulineCourse) : PaulineCourse :=
  { c with cid := key }

/-- Lines 139-141: member at rank `i` of a sorted duplicate group gets
cid `key ++ ":" ++ i`. -/
def rankCids (key : String) (l : List PaulineCourse) : List PaulineCourse :=
  l.enum.map fun p => { p.2 with cid := key ++ ":" ++ toString p.1 }

/-- Lines 128-142, the occupied-entry branch: push the course, reset every
member's cid to the key, sort by the full record, then assign rank cids. -/
def updGroup (key : String) (vec : List PaulineCourse) (course : PaulineCourse) :
    List PaulineCourse :=
  rankCids key (sortC ((vec ++ [course]).map (resetCid key)))

/-- Model of `HashMap::entry` update on an assoc list: replace the binding in
place if the key is present, append it otherwise. -/
def updateAssoc {β : Type} (m : List (String × β)) (k : String) (f : Option β → β) :
    List (String × β) :=
  match m with
  | [] => [(k, f none)]
  | (k', v) :: rest =>
    if k' = k then (k', f (some v)) :: rest else (k', v) :: updateAssoc rest k f

/-- Lines 122-143, one iteration of the grouping loop over `courses`. -/
def insertCourse (m : List (String × List PaulineCourse)) (course : PaulineCourse) :
    List (String × List PaulineCourse) :=
  updateAssoc m course.cid fun
    | none => [course]
    | some vec => updGroup course.cid vec course

/-- Lines 120-148: group an enumeration of the deduplicated course set by
cid and flatten the groups. The `order` parameter is the iteration order
of the `HashSet` (arbitrary at run time); `canonicalize_deterministic`
shows the resulting collection does not depend on it. -/
def canonicalizeWith (order : List PaulineCourse) : List PaulineCourse :=
  ((order.foldl insertCourse []).map Prod.snd).flatten

/-- Model of `format!("{}-{:02}-{:02}T{:02}:{:02}:{:02}", ...)` at lines 152-160. -/
def fmtCreated (t : UtcTime) : String :=
  toString t.year ++ "-" ++ fmt02 (t.month : Int) ++ "-" ++ fmt02 (t.day : Int) ++ "T" ++
    fmt02 (t.hour : Int) ++ ":" ++ fmt02 (t.minute : Int) ++ ":" ++ fmt02 (t.second : Int)

/-- The whole canonicalization pass (`main` of `convertjson.rs`): build
the index, convert every course, deduplicate value-identical converted
courses (the `HashSet` at line 62), group, disambiguate and flatten.
`List.dedup` fixes one enumeration of the `HashSet`;
`canonicalize_deterministic` proves the choice immaterial. -/
def canonicalize (st : StateSerializable) : Except CanonErr Semester := do
  let idx ← buildIndex st.small_groups
  let converted ← st.courses.mapM (convertCourse idx)
  Except.ok ⟨st.semester, fmtCreated st.start_time, canonicalizeWith converted.dedup⟩

/-- One step of first-occurrence key collection (specification device). -/
def keyStep (ks : List String) (c : PaulineCourse) : List String :=
  if c.cid ∈ ks then ks else ks ++ [c.cid]

/-- First-occurrence key order of an enumeration (specification device). -/
def keyList (s : List PaulineCourse) : List String :=
  s.foldl keyStep []

/-- What one cid group canonicalizes to: a singleton keeps its record
unchanged (bare provisional cid); a group of two or more is sorted by the
full record with cids reset to the key, then rank-suffixed. -/
def groupFinal (key : String) (l : List PaulineCourse) : List PaulineCourse :=
  if l.length ≤ 1 then l
  else rankCids key (sortC (l.map (resetCid key)))

/-- Closed-form description of `canonicalizeWith`. -/
def canonicalizeSpec (s : List PaulineCourse) : List PaulineCourse :=
  (keyList s).flatMap fun k => groupFinal k (s.filter fun c => c.cid == k)

/-! ## The work queue (`src/main.rs` lines 24-122)

The progress bars are pure observability and carry no queue state; the
queue content is the `VecDeque<QueueEntry>`, modelled as a list. -/

/-- Model of `QueueEntry` from `src/main.rs` lines 24-30. -/
inductive QueueEntry where
  | main : QueueEntry
  | tree (url : Url) (path : Path) : QueueEntry
  | courseLeaf (url : Url) (path : Path) : QueueEntry
  | smallGroupLeaf (url : Url) (path : Path) : QueueEntry
deriving DecidableEq, Repr

/-- Model of `Queue::push_back` (lines 64-93): appends the entry. -/
def queuePush (q : List QueueEntry) (entry : QueueEntry) : List QueueEntry :=
  q ++ [entry]

/-- Pushing a sequence of entries onto a queue. -/
def queuePushAll (q : List QueueEntry) (entries : List QueueEntry) : List QueueEntry :=
  entries.foldl queuePush q

/-- Model of `Queue::pop` (lines 95-116): `none` on an empty queue; otherwise
choose index `idx = i % len` (modelling `gen_range(0..len)`), and
`swap_remove_front(idx)`: return element `idx`, move the old front into
its slot, and drop the front. -/
def queuePop (q : List QueueEntry) (i : Nat) : Option (QueueEntry × List QueueEntry) :=
  match q with
  | [] => none
  | x :: xs =>
    let idx := i % (x :: xs).length
    some ((x :: xs).getD idx x, ((x :: xs).set idx x).tail)

/-- Pop repeatedly with the given index choices, collecting the popped
entries; stops early if the queue empties. -/
def queuePopMany (q : List QueueEntry) : List Nat → List QueueEntry × List QueueEntry
  | [] => ([], q)
  | i :: is =>
    match queuePop q i with
    | none => ([], q)
    | some (x, rest) =>
      let r := queuePopMany rest is
      (x :: r.1, r.2)

/-! ## The scheduler and handler concurrency model (`src/main.rs` lines 146-321)

The tokio event loop (lines 165-206) and the spawned `handle_entry` tasks
(lines 228-321) are modelled as an interleaving transition system.  A
spawned handler runs three observable phases, matching the lock-protected
sections of `handle_entry`:

* `beforeInc`  — spawned, has not yet executed `*running_tasks += 1`
  (lines 229-232, the handler's first statement);
* `beforeWork` — counter incremented, discoveries not yet enqueued /
  records not yet appended (lines 233-316);
* `beforeDec`  — work visible, `*running_tasks -= 1` (lines 317-320)
  still pending.

The page fetcher and extractor are external collaborators: `disc e` is
the list of entries the handler for `e` will enqueue (its discoveries),
and `recs e` the number of records it appends. -/

/-- The remaining program of a spawned `handle_entry` task. -/
inductive HandlerPhase where
  | beforeInc : HandlerPhase
  | beforeWork : HandlerPhase
  | beforeDec : HandlerPhase
deriving DecidableEq, Repr

/-- A spawned, not yet finished handler task. -/
structure HandlerTask where
  entry : QueueEntry
  phase : HandlerPhase
deriving DecidableEq, Repr

/-- The shared crawl state: queue, in-flight counter (`running_tasks`),
live handler tasks, appended record count, and whether the event loop has
exited (`break` at line 190). -/
structure SchedState where
  queue : List QueueEntry
  running : Nat
  tasks : List HandlerTask
  records : Nat
  halted : Bool
deriving DecidableEq, Repr

/-- One interleaving step of the event loop or of a handler task.

* `dispatch`: lines 175-198 — a tick where `pop()` returns an entry; the
  loop spawns `handle_entry` and continues.  The new task starts in phase
  `beforeInc`: `tokio::spawn` gives no guarantee the task body runs
  before any later halt check.
* `haltCheck`: lines 180-195 — a tick where `pop()` returns `none` and
  `running_tasks` reads 0: the loop breaks.
* `spin`: same, but `running_tasks` is nonzero: the loop just ticks on.
* `inc`: the handler executes `*running_tasks += 1` (lines 229-232).
* `work`: the handler enqueues all its discoveries and appends its
  records (lines 233-316; the queue pushes happen under one lock, the
  appends under another, but both complete before `dec`).
* `dec`: the handler executes `*running_tasks -= 1` (lines 317-320) and
  finishes. -/
inductive SchedStep (disc : QueueEntry → List QueueEntry) (recs : QueueEntry → Nat) :
    SchedState → SchedState → Prop where
  | dispatch (s : SchedState) (i : Nat) (e : QueueEntry) (q' : List QueueEntry)
      (hrun : s.halted = false) (hpop : queuePop s.queue i = some (e, q')) :
      SchedStep disc recs s
        { s with queue := q', tasks := s.tasks ++ [⟨e, .beforeInc⟩] }
  | haltCheck (s : SchedState) (hrun : s.halted = false) (hq : s.queue = [])
      (hr : s.running = 0) :
      SchedStep disc recs s { s with halted := true }
  | spin (s : SchedState) (hrun : s.halted = false) (hq : s.queue = [])
      (hr : s.running ≠ 0) :
      SchedStep disc recs s s
  | inc (s : SchedState) (pre post : List HandlerTask) (e : QueueEntry)
      (ht : s.tasks = pre ++ ⟨e, .beforeInc⟩ :: post) :
      SchedStep disc recs s
        { s with running := s.running + 1, tasks := pre ++ ⟨e, .beforeWork⟩ :: post }
  | work (s : SchedState) (pre post : List HandlerTask) (e : QueueEntry)
      (ht : s.tasks = pre ++ ⟨e, .beforeWork⟩ :: post) :
      SchedStep disc recs s
        { s with queue := queuePushAll s.queue (disc e),
                 records := s.records + recs e,
                 tasks := pre ++ ⟨e, .beforeDec⟩ :: post }
  | dec (s : SchedState) (pre post : List HandlerTask) (e : QueueEntry)
      (ht : s.tasks = pre ++ ⟨e, .beforeDec⟩ :: post) :
      SchedStep disc recs s { s with running := s.running - 1, tasks := pre ++ post }

/-- Reachability under the interleaving semantics. -/
def SchedReach (disc : QueueEntry → List QueueEntry) (recs : QueueEntry → Nat) :
    SchedState → SchedState → Prop :=
  Relation.ReflTransGen (SchedStep disc recs)

/-- The initial state after `main` pushes `QueueEntry::Main` (lines 208-212). -/
def schedInit : SchedState := ⟨[QueueEntry.main], 0, [], 0, false⟩

/-- Lines 259-271, the enqueue block of the `Tree` handler arm: push the
branches returned by `parse_courses_and_branches` — but only the first
two, through the `branches.into_iter().take(2)` left over from debugging —
as `Tree` entries, then every course leaf as a `CourseLeaf` entry. -/
def treeEnqueues (branches : List (Url × Path)) (courses : List (Url × Path)) :
    List QueueEntry :=
  (branches.take 2).map (fun b => QueueEntry.tree b.1 b.2) ++
    courses.map fun c => QueueEntry.courseLeaf c.1 c.2

/-! ## Lawfulness of the derived comparators

Rust's `#[derive(Ord)]` always produces a total order; these lemmas
establish the corresponding facts for the comparator models, which is
what makes `vec.sort()` produce a unique, input-order-independent list. -/

/-- A comparator realising a total order: `eq` exactly on equal values,
antisymmetric via `swap`, with transitive `lt`. -/
structure LawfulCmp {α : Type} (cmp : α → α → Ordering) : Prop where
  eq_iff : ∀ a b, cmp a b = .eq ↔ a = b
  swap_eq : ∀ a b, (cmp a b).swap = cmp b a
  lt_trans : ∀ a b c, cmp a b = .lt → cmp b c = .lt → cmp a c = .lt

/-- Case analysis for `Ordering.then` equal to `lt`. -/
theorem then_eq_lt {o₁ o₂ : Ordering} :
    o₁.then o₂ = .lt ↔ o₁ = .lt ∨ (o₁ = .eq ∧ o₂ = .lt) := by
  cases o₁ <;> simp [Ordering.then]

/-- Case analysis for `Ordering.then` equal to `eq`. -/
theorem then_eq_eq {o₁ o₂ : Ordering} :
    o₁.then o₂ = .eq ↔ o₁ = .eq ∧ o₂ = .eq := by
  cases o₁ <;> simp [Ordering.then]

/-- The swap of `Ordering.then` is the `then` of the swaps. -/
theorem then_swap {o₁ o₂ : Ordering} :
    (o₁.then o₂).swap = o₁.swap.then o₂.swap := by
  cases o₁ <;> cases o₂ <;> rfl

/-- Characters with equal code points are equal. -/
theorem charToNat_inj : Function.Injective Char.toNat :=
  StrictMono.injective fun _ _ h => h

/-- Lawfulness of the character comparator. -/
theorem lawful_cmpChar : LawfulCmp cmpChar := by
  refine ⟨fun a b => ?_, fun a b => ?_, fun a b c h1 h2 => ?_⟩
  · unfold cmpChar
    split_ifs with h1 h2
    · constructor
      · intro h; cases h
      · intro h; subst h; omega
    · constructor
      · intro h; cases h
      · intro h; subst h; omega
    · have : a.toNat = b.toNat := by omega
      simp [charToNat_inj this]
  · unfold cmpChar
    split_ifs <;> first | rfl | omega
  · unfold cmpChar at h1 h2 ⊢
    split_ifs at h1 h2 ⊢ <;> first | rfl | omega

/-- Lawfulness transfers along an injection. -/
theorem LawfulCmp.comap {α β : Type} {cmp : β → β → Ordering} (h : LawfulCmp cmp)
    (f : α → β) (hf : Function.Injective f) :
    LawfulCmp (fun a b => cmp (f a) (f b)) := by
  refine ⟨fun a b => ?_, fun a b => h.swap_eq _ _, fun a b c => h.lt_trans _ _ _⟩
  rw [h.eq_iff]
  exact ⟨fun e => hf e, fun e => by rw [e]⟩

/-- Lawfulness of the pair comparator. -/
theorem lawful_cmpProd {α β : Type} {ca : α → α → Ordering} {cb : β → β → Ordering}
    (ha : LawfulCmp ca) (hb : LawfulCmp cb) : LawfulCmp (cmpProd ca cb) := by
  refine ⟨fun x y => ?_, fun x y => ?_, fun x y z h1 h2 => ?_⟩
  · unfold cmpProd
    rw [then_eq_eq, ha.eq_iff, hb.eq_iff, Prod.ext_iff]
  · unfold cmpProd
    rw [then_swap, ha.swap_eq, hb.swap_eq]
  · unfold cmpProd at h1 h2 ⊢
    rw [then_eq_lt] at h1 h2 ⊢
    rcases h1 with h1 | ⟨h1e, h1l⟩ <;> rcases h2 with h2 | ⟨h2e, h2l⟩
    · exact Or.inl (ha.lt_trans _ _ _ h1 h2)
    · rw [ha.eq_iff] at h2e
      exact Or.inl (by rw [← h2e]; exact h1)
    · rw [ha.eq_iff] at h1e
      exact Or.inl (by rw [h1e]; exact h2)
    · rw [ha.eq_iff] at h1e h2e
      exact Or.inr ⟨by rw [ha.eq_iff, h1e, h2e], hb.lt_trans _ _ _ h1l h2l⟩

/-- Lawfulness of the option comparator. -/
theorem lawful_cmpOpt {α : Type} {c : α → α → Ordering} (hc : LawfulCmp c) :
    LawfulCmp (cmpOpt c) := by
  refine ⟨fun a b => ?_, fun a b => ?_, fun a b d h1 h2 => ?_⟩
  · cases a <;> cases b <;> simp [cmpOpt, hc.eq_iff]
  · cases a <;> cases b
    · rfl
    · rfl
    · rfl
    · exact hc.swap_eq _ _
  · cases a <;> cases b <;> cases d <;> simp_all [cmpOpt]
    exact hc.lt_trans _ _ _ h1 h2

/-- Lawfulness of the list (lexicographic) comparator. -/
theorem lawful_cmpList {α : Type} {c : α → α → Ordering} (hc : LawfulCmp c) :
    LawfulCmp (cmpList c) := by
  have heq : ∀ as bs, cmpList c as bs = .eq ↔ as = bs := by
    intro as
    induction as with
    | nil => intro bs; cases bs <;> simp [cmpList]
    | cons a as ih =>
      intro bs
      cases bs with
      | nil => simp [cmpList]
      | cons b bs => simp [cmpList, then_eq_eq, hc.eq_iff, ih]
  have hswap : ∀ as bs, (cmpList c as bs).swap = cmpList c bs as := by
    intro as
    induction as with
    | nil => intro bs; cases bs <;> rfl
    | cons a as ih =>
      intro bs
      cases bs with
      | nil => rfl
      | cons b bs => simp [cmpList, then_swap, hc.swap_eq, ih]
  have hlt : ∀ as bs cs, cmpList c as bs = .lt → cmpList c bs cs = .lt →
      cmpList c as cs = .lt := by
    intro as
    induction as with
    | nil =>
      intro bs cs h1 h2
      cases bs with
      | nil => simp [cmpList] at h1
      | cons b bs =>
        cases cs with
        | nil => simp [cmpList] at h2
        | cons d cs => simp [cmpList]
    | cons a as ih =>
      intro bs cs h1 h2
      cases bs with
      | nil => simp [cmpList] at h1
      | cons b bs =>
        cases cs with
        | nil => simp [cmpList] at h2
        | cons d cs =>
          simp only [cmpList, then_eq_lt] at h1 h2 ⊢
          rcases h1 with h1 | ⟨h1e, h1l⟩ <;> rcases h2 with h2 | ⟨h2e, h2l⟩
          · exact Or.inl (hc.lt_trans _ _ _ h1 h2)
          · rw [hc.eq_iff] at h2e
            exact Or.inl (by rw [← h2e]; exact h1)
          · rw [hc.eq_iff] at h1e
            exact Or.inl (by rw [h1e]; exact h2)
          · rw [hc.eq_iff] at h1e h2e
            exact Or.inr ⟨by rw [hc.eq_iff, h1e, h2e], ih _ _ h1l h2l⟩
  exact ⟨heq, hswap, hlt⟩

/-- The character data of a string determines it. -/
theorem stringData_inj : Function.Injective String.data := by
  intro a b h
  cases a
  cases b
  cases h
  rfl

/-- Lawfulness of the string comparator. -/
theorem lawful_cmpStr : LawfulCmp cmpStr :=
  LawfulCmp.comap (lawful_cmpList lawful_cmpChar) String.data stringData_inj

/-- The appointment key is injective. -/
theorem appKey_injective : Function.Injective appKey := by
  intro a b h
  cases a
  cases b
  simp_all [appKey]

/-- The small-group key is injective. -/
theorem sgKey_injective : Function.Injective sgKey := by
  intro a b h
  cases a
  cases b
  simp_all [sgKey]

/-- The course key is injective. -/
theorem courseKey_injective : Function.Injective courseKey := by
  intro a b h
  cases a
  cases b
  simp_all [courseKey]

/-- Lawfulness of the appointment comparator. -/
theorem lawful_cmpApp : LawfulCmp cmpApp :=
  LawfulCmp.comap
    (lawful_cmpProd lawful_cmpStr (lawful_cmpProd lawful_cmpStr
      (lawful_cmpProd lawful_cmpStr lawful_cmpStr)))
    appKey appKey_injective

/-- Lawfulness of the small-group comparator. -/
theorem lawful_cmpSG : LawfulCmp cmpSG :=
  LawfulCmp.comap (lawful_cmpProd lawful_cmpStr (lawful_cmpList lawful_cmpApp))
    sgKey sgKey_injective

/-- Lawfulness of the full-record course comparator. -/
theorem lawful_cmpCourse : LawfulCmp cmpCourse :=
  LawfulCmp.comap
    (lawful_cmpProd lawful_cmpStr (lawful_cmpProd lawful_cmpStr
      (lawful_cmpProd (lawful_cmpOpt lawful_cmpStr) (lawful_cmpProd (lawful_cmpOpt lawful_cmpStr)
        (lawful_cmpProd (lawful_cmpOpt lawful_cmpStr)
          (lawful_cmpProd (lawful_cmpList lawful_cmpSG) (lawful_cmpList lawful_cmpApp)))))))
    courseKey courseKey_injective

instance : IsTotal PaulineCourse courseLE := by
  constructor
  intro a b
  by_cases h : cmpCourse a b = .gt
  · right
    have hs := lawful_cmpCourse.swap_eq a b
    rw [h] at hs
    unfold courseLE
    rw [← hs]
    decide
  · exact Or.inl h

instance : IsTrans PaulineCourse courseLE := by
  constructor
  intro a b c hab hbc
  unfold courseLE at *
  cases h1 : cmpCourse a b with
  | gt => exact absurd h1 hab
  | eq =>
    rw [lawful_cmpCourse.eq_iff] at h1
    rw [h1]
    exact hbc
  | lt =>
    cases h2 : cmpCourse b c with
    | gt => exact absurd h2 hbc
    | eq =>
      rw [lawful_cmpCourse.eq_iff] at h2
      rw [← h2]
      simp [h1]
    | lt => simp [lawful_cmpCourse.lt_trans a b c h1 h2]

instance : IsAntisymm PaulineCourse courseLE := by
  constructor
  intro a b hab hba
  unfold courseLE at hab hba
  cases h : cmpCourse a b with
  | gt => exact absurd h hab
  | eq => exact lawful_cmpCourse.eq_iff a b |>.mp h
  | lt =>
    exfalso
    apply hba
    have := lawful_cmpCourse.swap_eq a b
    rw [h] at this
    exact this.symm

/-- The sorted output of `sortC` is sorted for `courseLE`. -/
theorem sortC_sorted (l : List PaulineCourse) : List.Sorted courseLE (sortC l) :=
  List.sorted_insertionSort courseLE l

/-- The output of `sortC` is a permutation of its input. -/
theorem sortC_perm (l : List PaulineCourse) : (sortC l).Perm l :=
  List.perm_insertionSort courseLE l

/-- Sorting by the total order depends only on the multiset of elements. -/
theorem sortC_congr {l₁ l₂ : List PaulineCourse} (h : l₁.Perm l₂) :
    sortC l₁ = sortC l₂ :=
  List.eq_of_perm_of_sorted ((sortC_perm l₁).trans (h.trans (sortC_perm l₂).symm))
    (sortC_sorted l₁) (sortC_sorted l₂)

/-! ## The grouping fold computes `canonicalizeSpec` -/

/-- Resetting a cid twice is the same as resetting once. -/
theorem resetCid_resetCid (k₁ k₂ : String) (c : PaulineCourse) :
    resetCid k₂ (resetCid k₁ c) = resetCid k₂ c := rfl

/-- Resetting a cid to its own value is the identity. -/
theorem resetCid_self {k : String} {c : PaulineCourse} (h : c.cid = k) :
    resetCid k c = c := by
  subst h
  cases c
  rfl

/-- Resetting cids after rank assignment is the same as resetting the
pre-rank members. -/
theorem rankCids_reset (k : String) (w : List PaulineCourse) :
    (rankCids k w).map (resetCid k) = w.map (resetCid k) := by
  unfold rankCids
  rw [List.map_map]
  have h1 : (resetCid k ∘ fun p : Nat × PaulineCourse =>
      { p.2 with cid := k ++ ":" ++ toString p.1 }) =
      (resetCid k ∘ Prod.snd) := by
    funext p
    rfl
  rw [h1, ← List.map_map, List.enum_map_snd]

/-- Resetting the cids of an already-reset list changes nothing. -/
theorem map_resetCid_idem (k : String) (l : List PaulineCourse) :
    (l.map (resetCid k)).map (resetCid k) = l.map (resetCid k) := by
  rw [List.map_map]
  exact List.map_congr_left fun c _ => resetCid_resetCid k k c

/-- The occupied-entry update advances the closed form of a group: folding
one more member into a group's stored vector yields the closed form of the
extended member list. -/
theorem updGroup_groupFinal (k : String) (c : PaulineCourse) (l : List PaulineCourse)
    (h : l ≠ []) : updGroup k (groupFinal k l) c = groupFinal k (l ++ [c]) := by
  have hlen : 0 < l.length := List.length_pos.mpr h
  have hr : ¬(l ++ [c]).length ≤ 1 := by
    simp only [List.length_append, List.length_singleton]
    omega
  unfold updGroup groupFinal
  rw [if_neg hr]
  by_cases h1 : l.length ≤ 1
  · rw [if_pos h1]
  · rw [if_neg h1]
    congr 1
    apply sortC_congr
    rw [List.map_append, List.map_append, rankCids_reset]
    apply List.Perm.append_right
    have hp := (sortC_perm (l.map (resetCid k))).map (resetCid k)
    rw [map_resetCid_idem k l] at hp
    exact hp

/-- Unfolding `keyList` over a snoc. -/
theorem keyList_append (s : List PaulineCourse) (c : PaulineCourse) :
    keyList (s ++ [c]) =
      if c.cid ∈ keyList s then keyList s else keyList s ++ [c.cid] := by
  unfold keyList
  rw [List.foldl_append]
  rfl

/-- Key membership in the generalized key fold. -/
theorem keyList_aux_mem (s : List PaulineCourse) (ks : List String) (k : String) :
    k ∈ s.foldl keyStep ks ↔ k ∈ ks ∨ ∃ x ∈ s, x.cid = k := by
  induction s generalizing ks with
  | nil => simp
  | cons c s ih =>
    rw [List.foldl_cons, ih]
    unfold keyStep
    by_cases hc : c.cid ∈ ks
    · constructor
      · rintro (hk | hx)
        · rw [if_pos hc] at hk
          exact Or.inl hk
        · exact Or.inr ⟨hx.choose, List.mem_cons_of_mem _ hx.choose_spec.1, hx.choose_spec.2⟩
      · rintro (hk | ⟨x, hx, e⟩)
        · exact Or.inl (by rw [if_pos hc]; exact hk)
        · rcases List.mem_cons.mp hx with rfl | hx
          · exact Or.inl (by rw [if_pos hc]; exact e ▸ hc)
          · exact Or.inr ⟨x, hx, e⟩
    · rw [if_neg hc]
      constructor
      · rintro (hk | hx)
        · rcases List.mem_append.mp hk with hk | hk
          · exact Or.inl hk
          · exact Or.inr ⟨c, List.mem_cons_self _ _, (List.mem_singleton.mp hk).symm⟩
        · exact Or.inr ⟨hx.choose, List.mem_cons_of_mem _ hx.choose_spec.1, hx.choose_spec.2⟩
      · rintro (hk | ⟨x, hx, e⟩)
        · exact Or.inl (List.mem_append.mpr (Or.inl hk))
        · rcases List.mem_cons.mp hx with rfl | hx
          · exact Or.inl (List.mem_append.mpr (Or.inr (List.mem_singleton.mpr e.symm)))
          · exact Or.inr ⟨x, hx, e⟩

/-- Key membership: a key occurs exactly when some member carries it. -/
theorem mem_keyList {s : List PaulineCourse} {k : String} :
    k ∈ keyList s ↔ ∃ x ∈ s, x.cid = k := by
  unfold keyList
  rw [keyList_aux_mem]
  simp

/-- The generalized key fold preserves distinctness. -/
theorem keyList_aux_nodup (s : List PaulineCourse) (ks : List String)
    (h : ks.Nodup) : (s.foldl keyStep ks).Nodup := by
  induction s generalizing ks with
  | nil => exact h
  | cons c s ih =>
    rw [List.foldl_cons]
    apply ih
    unfold keyStep
    by_cases hc : c.cid ∈ ks
    · rw [if_pos hc]
      exact h
    · rw [if_neg hc]
      simp [List.nodup_append, h, hc]

/-- The key list is distinct. -/
theorem keyList_nodup (s : List PaulineCourse) : (keyList s).Nodup :=
  keyList_aux_nodup s [] List.nodup_nil

/-- Updating an absent key appends the fresh binding. -/
theorem updateAssoc_not_mem {β : Type} (m : List (String × β)) (k : String)
    (f : Option β → β) (h : ∀ kv ∈ m, kv.1 ≠ k) :
    updateAssoc m k f = m ++ [(k, f none)] := by
  induction m with
  | nil => rfl
  | cons kv rest ih =>
    obtain ⟨k', v⟩ := kv
    have hne : k' ≠ k := h (k', v) (List.mem_cons_self _ _)
    simp only [updateAssoc, if_neg hne, List.cons_append, List.cons.injEq, true_and]
    exact ih fun kv hkv => h kv (List.mem_cons_of_mem _ hkv)

/-- Updating a present key of a keyed map rewrites exactly that value. -/
theorem updateAssoc_mapF {β : Type} (ks : List String) (F F' : String → β)
    (k : String) (f : Option β → β) (hnd : ks.Nodup) (hk : k ∈ ks)
    (hF : ∀ x ∈ ks, x ≠ k → F' x = F x) (hFk : F' k = f (some (F k))) :
    updateAssoc (ks.map fun x => (x, F x)) k f = ks.map fun x => (x, F' x) := by
  induction ks with
  | nil => cases hk
  | cons a ks ih =>
    rw [List.map_cons, List.map_cons]
    by_cases hak : a = k
    · subst hak
      have hstep : updateAssoc ((a, F a) :: List.map (fun x => (x, F x)) ks) a f =
          (a, f (some (F a))) :: List.map (fun x => (x, F x)) ks := by
        simp [updateAssoc]
      rw [hstep, hFk]
      congr 1
      exact List.map_congr_left fun x hx => by
        have hxa : x ≠ a := fun e => (List.nodup_cons.mp hnd).1 (e ▸ hx)
        rw [hF x (List.mem_cons_of_mem _ hx) hxa]
    · have hstep : updateAssoc ((a, F a) :: List.map (fun x => (x, F x)) ks) k f =
          (a, F a) :: updateAssoc (List.map (fun x => (x, F x)) ks) k f := by
        simp [updateAssoc, hak]
      rw [hstep, hF a (List.mem_cons_self _ _) hak]
      congr 1
      exact ih (List.nodup_cons.mp hnd).2
        ((List.mem_cons.mp hk).resolve_left fun e => hak e.symm)
        (fun x hx hxk => hF x (List.mem_cons_of_mem _ hx) hxk)

/-- Updating a fresh key of a keyed map appends its binding. -/
theorem updateAssoc_mapF_new {β : Type} (ks : List String) (F F' : String → β)
    (k : String) (f : Option β → β) (hk : k ∉ ks)
    (hF : ∀ x ∈ ks, F' x = F x) (hFk : F' k = f none) :
    updateAssoc (ks.map fun x => (x, F x)) k f = (ks ++ [k]).map fun x => (x, F' x) := by
  rw [updateAssoc_not_mem]
  · rw [List.map_append, List.map_singleton]
    congr 1
    · exact (List.map_congr_left fun x hx => by rw [hF x hx]).symm
    · rw [hFk]
  · rintro ⟨k', v⟩ hkv
    simp only [List.mem_map] at hkv
    obtain ⟨x, hx, e⟩ := hkv
    cases e
    exact fun e => hk (e ▸ hx)

/-- The closed form of the grouping `HashMap` after the whole fold. -/
def assocOf (s : List PaulineCourse) : List (String × List PaulineCourse) :=
  (keyList s).map fun k => (k, groupFinal k (s.filter fun c => c.cid == k))

/-- The grouping loop of lines 120-143 computes, key by key, the closed
form `groupFinal` of each cid group. -/
theorem foldl_insertCourse_eq (s : List PaulineCourse) :
    s.foldl insertCourse [] = assocOf s := by
  induction s using List.reverseRecOn with
  | nil => rfl
  | append_singleton s c ih =>
    rw [List.foldl_append, List.foldl_cons, List.foldl_nil, ih]
    unfold insertCourse assocOf
    have hfilter : ∀ x : String, x ≠ c.cid →
        (s ++ [c]).filter (fun d => d.cid == x) = s.filter fun d => d.cid == x := by
      intro x hx
      rw [List.filter_append]
      have hcx : (c.cid == x) = false := by
        rw [beq_eq_false_iff_ne]
        exact fun h => hx h.symm
      have hnil : [c].filter (fun d => d.cid == x) = [] := by
        simp [List.filter_cons, hcx]
      rw [hnil, List.append_nil]
    have hfilterc : (s ++ [c]).filter (fun d => d.cid == c.cid) =
        (s.filter fun d => d.cid == c.cid) ++ [c] := by
      rw [List.filter_append]
      congr 1
      simp [List.filter_cons]
    by_cases hmem : c.cid ∈ keyList s
    · rw [keyList_append, if_pos hmem]
      apply updateAssoc_mapF _ _ _ _ _ (keyList_nodup s) hmem
      · intro x hx hxc
        rw [hfilter x hxc]
      · rw [hfilterc]
        refine (updGroup_groupFinal c.cid c _ ?_).symm
        obtain ⟨x, hx, e⟩ := mem_keyList.mp hmem
        intro hnil
        have : x ∈ s.filter fun d => d.cid == c.cid :=
          List.mem_filter.mpr ⟨hx, by simp [e]⟩
        rw [hnil] at this
        cases this
    · rw [keyList_append, if_neg hmem]
      apply updateAssoc_mapF_new _ _ _ _ _ hmem
      · intro x hx
        rw [hfilter x fun e => hmem (e ▸ hx)]
      · have hempty : (s.filter fun d => d.cid == c.cid) = [] := by
          rw [List.filter_eq_nil_iff]
          intro a ha hac
          exact hmem (mem_keyList.mpr ⟨a, ha, by simpa using hac⟩)
        rw [hfilterc, hempty, List.nil_append]
        rfl

/-- The flattening of the grouping fold is the closed-form `flatMap`. -/
theorem canonicalizeWith_eq_spec (s : List PaulineCourse) :
    canonicalizeWith s = canonicalizeSpec s := by
  unfold canonicalizeWith canonicalizeSpec
  rw [foldl_insertCourse_eq]
  unfold assocOf
  rw [List.map_map, List.flatMap_def]
  rfl

/-- The closed form of one group depends only on the members' multiset. -/
theorem groupFinal_congr (k : String) {l₁ l₂ : List PaulineCourse}
    (h : l₁.Perm l₂) : groupFinal k l₁ = groupFinal k l₂ := by
  unfold groupFinal
  have hlen := h.length_eq
  by_cases h1 : l₁.length ≤ 1
  · rw [if_pos h1, if_pos (hlen ▸ h1)]
    cases l₁ with
    | nil => exact h.nil_eq
    | cons a as =>
      cases as with
      | nil => exact (List.perm_singleton.mp h.symm).symm
      | cons b bs => simp at h1
  · rw [if_neg h1, if_neg (hlen ▸ h1)]
    congr 1
    exact sortC_congr (h.map _)

/-- The closed form of canonicalization is invariant, as a multiset, under
permutation of the enumeration order. -/
theorem canonicalizeSpec_perm {s s' : List PaulineCourse} (h : s.Perm s') :
    (canonicalizeSpec s).Perm (canonicalizeSpec s') := by
  unfold canonicalizeSpec
  have hk : (keyList s).Perm (keyList s') := by
    rw [List.perm_ext_iff_of_nodup (keyList_nodup s) (keyList_nodup s')]
    intro k
    rw [mem_keyList, mem_keyList]
    constructor <;> rintro ⟨x, hx, e⟩
    · exact ⟨x, h.mem_iff.mp hx, e⟩
    · exact ⟨x, h.mem_iff.mpr hx, e⟩
  have hfun : (fun k => groupFinal k (s'.filter fun c => c.cid == k)) =
      fun k => groupFinal k (s.filter fun c => c.cid == k) :=
    funext fun k => (groupFinal_congr k (h.filter _)).symm
  rw [hfun]
  exact hk.flatMap_right _

/-! ## Helper lemmas for `Except` traversals -/

/-- Bind on an ok value applies the continuation. -/
theorem except_bind_ok {ε α β : Type} (a : α) (f : α → Except ε β) :
    (Except.ok a >>= f) = f a := rfl

/-- Bind on an error propagates the error. -/
theorem except_bind_error {ε α β : Type} (e : ε) (f : α → Except ε β) :
    ((Except.error e : Except ε α) >>= f) = Except.error e := rfl

/-- Pure in `Except` is ok. -/
theorem except_pure_eq {ε α : Type} (a : α) : (pure a : Except ε α) = Except.ok a := rfl

/-- A traversal fails as soon as one element fails. -/
theorem exceptMapM_error_of_mem {ε α β : Type} (f : α → Except ε β) {l : List α}
    {x : α} (hx : x ∈ l) {e : ε} (hf : f x = .error e) :
    ∃ e', l.mapM f = .error e' := by
  induction l with
  | nil => cases hx
  | cons a l ih =>
    rw [List.mapM_cons]
    rcases List.mem_cons.mp hx with rfl | hx
    · rw [hf]
      exact ⟨e, rfl⟩
    · cases ha : f a with
      | error e' => exact ⟨e', rfl⟩
      | ok b =>
        obtain ⟨e', he'⟩ := ih hx
        rw [he']
        exact ⟨e', rfl⟩

/-- A successful traversal succeeds on each member, and the member's image
is in the output. -/
theorem exceptMapM_ok_mem {ε α β : Type} {f : α → Except ε β} :
    ∀ {l : List α} {bs : List β}, l.mapM f = .ok bs → ∀ {x : α}, x ∈ l →
      ∃ b, f x = .ok b ∧ b ∈ bs := by
  intro l
  induction l with
  | nil => intro bs h x hx; cases hx
  | cons a l ih =>
    intro bs h x hx
    rw [List.mapM_cons] at h
    cases ha : f a with
    | error e =>
      rw [ha, except_bind_error] at h
      cases h
    | ok b =>
      rw [ha, except_bind_ok] at h
      cases hl : l.mapM f with
      | error e =>
        rw [hl, except_bind_error] at h
        cases h
      | ok cs =>
        rw [hl, except_bind_ok, except_pure_eq] at h
        cases h
        rcases List.mem_cons.mp hx with rfl | hx
        · exact ⟨b, ha, List.mem_cons_self _ _⟩
        · obtain ⟨b', hb', hmem⟩ := ih hl hx
          exact ⟨b', hb', List.mem_cons_of_mem _ hmem⟩

/-- If every element succeeds, the traversal succeeds. -/
theorem exceptMapM_ok_of_forall {ε α β : Type} {f : α → Except ε β} :
    ∀ {l : List α}, (∀ x ∈ l, ∃ b, f x = .ok b) → ∃ bs, l.mapM f = .ok bs := by
  intro l
  induction l with
  | nil => exact fun _ => ⟨[], rfl⟩
  | cons a l ih =>
    intro h
    obtain ⟨b, hb⟩ := h a (List.mem_cons_self _ _)
    obtain ⟨bs, hbs⟩ := ih fun x hx => h x (List.mem_cons_of_mem _ hx)
    refine ⟨b :: bs, ?_⟩
    rw [List.mapM_cons, hb, except_bind_ok, hbs, except_bind_ok, except_pure_eq]

/-- A successful traversal of an append splits into successful traversals. -/
theorem exceptMapM_append_ok {ε α β : Type} {f : α → Except ε β} :
    ∀ {l₁ l₂ : List α} {b₁ b₂ : List β}, l₁.mapM f = .ok b₁ → l₂.mapM f = .ok b₂ →
      (l₁ ++ l₂).mapM f = .ok (b₁ ++ b₂) := by
  intro l₁
  induction l₁ with
  | nil =>
    intro l₂ b₁ b₂ h1 h2
    cases h1
    exact h2
  | cons a l ih =>
    intro l₂ b₁ b₂ h1 h2
    rw [List.mapM_cons] at h1
    cases ha : f a with
    | error e =>
      rw [ha, except_bind_error] at h1
      cases h1
    | ok b =>
      rw [ha, except_bind_ok] at h1
      cases hl : l.mapM f with
      | error e =>
        rw [hl, except_bind_error] at h1
        cases h1
      | ok cs =>
        rw [hl, except_bind_ok, except_pure_eq] at h1
        cases h1
        rw [List.cons_append, List.mapM_cons, ha, except_bind_ok,
          ih hl h2, except_bind_ok, except_pure_eq]
        rfl

/-- Inversion of a successful traversal of an append. -/
theorem exceptMapM_append_inv {ε α β : Type} {f : α → Except ε β} :
    ∀ {l₁ l₂ : List α} {bs : List β}, (l₁ ++ l₂).mapM f = .ok bs →
      ∃ b₁ b₂, l₁.mapM f = .ok b₁ ∧ l₂.mapM f = .ok b₂ ∧ bs = b₁ ++ b₂ := by
  intro l₁
  induction l₁ with
  | nil =>
    intro l₂ bs h
    exact ⟨[], bs, rfl, h, rfl⟩
  | cons a l ih =>
    intro l₂ bs h
    rw [List.cons_append, List.mapM_cons] at h
    cases ha : f a with
    | error e =>
      rw [ha, except_bind_error] at h
      cases h
    | ok b =>
      rw [ha, except_bind_ok] at h
      cases hl : (l ++ l₂).mapM f with
      | error e =>
        rw [hl, except_bind_error] at h
        cases h
      | ok cs =>
        rw [hl, except_bind_ok, except_pure_eq] at h
        cases h
        obtain ⟨b₁, b₂, hb₁, hb₂, rfl⟩ := ih hl
        refine ⟨b :: b₁, b₂, ?_, hb₂, rfl⟩
        rw [List.mapM_cons, ha, except_bind_ok, hb₁, except_bind_ok, except_pure_eq]

/-! ## Queue lemmas -/

/-- Extracting position `j` and writing `x` there permutes with putting
`x` in front. -/
theorem set_get_perm {α : Type} :
    ∀ (xs : List α) (j : Nat) (h : j < xs.length) (x : α),
      (xs[j] :: xs.set j x).Perm (x :: xs) := by
  intro xs
  induction xs with
  | nil => intro j h; cases h
  | cons a t ih =>
    intro j h x
    cases j with
    | zero => exact List.Perm.swap x a t
    | succ m =>
      have hm : m < t.length := Nat.lt_of_succ_lt_succ h
      have step1 : (t[m] :: a :: t.set m x).Perm
          (a :: t[m] :: t.set m x) := List.Perm.swap _ _ _
      have step2 : (a :: t[m] :: t.set m x).Perm (a :: x :: t) :=
        (ih m hm x).cons a
      have step3 : (a :: x :: t).Perm (x :: a :: t) := List.Perm.swap _ _ _
      exact (step1.trans step2).trans step3

/-- A successful pop returns one element of the queue: putting it back in
front recovers the queue up to permutation, and the length drops by one. -/
theorem queuePop_perm {q : List QueueEntry} {i : Nat} {y : QueueEntry}
    {rest : List QueueEntry} (h : queuePop q i = some (y, rest)) :
    (y :: rest).Perm q ∧ rest.length + 1 = q.length := by
  cases q with
  | nil => cases h
  | cons x xs =>
    simp only [queuePop] at h
    cases hidx : i % (x :: xs).length with
    | zero =>
      rw [hidx] at h
      simp only [List.getD_cons_zero, List.set_cons_zero, List.tail_cons,
        Option.some.injEq, Prod.mk.injEq] at h
      obtain ⟨rfl, rfl⟩ := h
      exact ⟨List.Perm.refl _, rfl⟩
    | succ j =>
      have hj : j < xs.length := by
        have hb : i % (x :: xs).length < (x :: xs).length :=
          Nat.mod_lt _ (Nat.succ_pos xs.length)
        rw [hidx] at hb
        simpa [Nat.succ_lt_succ_iff] using hb
      rw [hidx] at h
      simp only [List.getD_cons_succ, List.set_cons_succ, List.tail_cons,
        Option.some.injEq, Prod.mk.injEq] at h
      obtain ⟨rfl, rfl⟩ := h
      constructor
      · have hperm := set_get_perm xs j hj x
        rw [List.getD_eq_getElem _ _ hj]
        exact hperm
      · simp

/-- A queue built by pushing onto the empty queue holds exactly the
pushed entries in order. -/
theorem queuePushAll_nil (pushed : List QueueEntry) :
    queuePushAll [] pushed = pushed := by
  have haux : ∀ (l q : List QueueEntry), queuePushAll q l = q ++ l := by
    intro l
    induction l with
    | nil => intro q; simp [queuePushAll]
    | cons a l ih =>
      intro q
      unfold queuePushAll at ih ⊢
      rw [List.foldl_cons, ih]
      simp [queuePush]
  rw [haux]
  rfl

/-- Popping as many times as the queue holds drains it completely and
returns a permutation of its content, for every sequence of random
choices. -/
theorem queuePopMany_drain :
    ∀ (is : List Nat) (q : List QueueEntry), is.length = q.length →
      (queuePopMany q is).1.Perm q ∧ (queuePopMany q is).2 = [] := by
  intro is
  induction is with
  | nil =>
    intro q hlen
    have : q = [] := List.length_eq_zero.mp hlen.symm
    subst this
    exact ⟨List.Perm.refl _, rfl⟩
  | cons i is ih =>
    intro q hlen
    cases q with
    | nil => cases hlen
    | cons x xs =>
      cases hpop : queuePop (x :: xs) i with
      | none => simp [queuePop] at hpop
      | some pr =>
        obtain ⟨y, rest⟩ := pr
        obtain ⟨hperm, hrest⟩ := queuePop_perm hpop
        have hlen' : is.length = rest.length := by
          have h1 := hlen
          have h2 := hrest
          simp at h1 h2
          omega
        obtain ⟨ih1, ih2⟩ := ih rest hlen'
        simp only [queuePopMany, hpop]
        exact ⟨(ih1.cons y).trans hperm, ih2⟩

/-! ## Error-path and ok-path characterization of `convertCourse` -/

/-- A course referencing an unresolvable small-group url does not convert. -/
theorem convertCourse_error_of_unresolved (idx : List (String × PaulineSmallGroup))
    (c : Course) {u : String} (hu : u ∈ c.small_groups)
    (hl : lookupIdx idx u = none) : ∃ e, convertCourse idx c = .error e := by
  unfold convertCourse
  cases ha : c.appointments.mapM convert_appointment with
  | error e => exact ⟨e, rfl⟩
  | ok appts =>
    have hres : ∃ e, resolveRefs idx c.small_groups = .error e := by
      unfold resolveRefs
      have hfe : (fun u' => match lookupIdx idx u' with
          | none => Except.error (CanonErr.unresolvedSmallGroup u')
          | some p => Except.ok p) u =
          Except.error (CanonErr.unresolvedSmallGroup u) := by
        simp only [hl]
      exact exceptMapM_error_of_mem _ hu hfe
    obtain ⟨e, he⟩ := hres
    refine ⟨e, ?_⟩
    simp only [except_bind_ok, he, except_bind_error]

/-- A course whose last path fragment has fewer than two lines does not
convert. -/
theorem convertCourse_error_of_short (idx : List (String × PaulineSmallGroup))
    (c : Course) {frag : String} (hf : c.path.fragments.getLast? = some frag)
    (hlen : (rustLines frag).length < 2) : ∃ e, convertCourse idx c = .error e := by
  unfold convertCourse
  cases ha : c.appointments.mapM convert_appointment with
  | error e => exact ⟨e, rfl⟩
  | ok appts =>
    cases hr : resolveRefs idx c.small_groups with
    | error e =>
      refine ⟨e, ?_⟩
      simp only [except_bind_ok, except_bind_error]
    | ok sgs =>
      cases h0 : (rustLines frag)[0]? with
      | none =>
        refine ⟨CanonErr.shortFragment, ?_⟩
        simp only [except_bind_ok, except_bind_error, hf, h0]
      | some l0 =>
        have h1 : (rustLines frag)[1]? = none := by
          rw [List.getElem?_eq_none]
          omega
        refine ⟨CanonErr.shortFragment, ?_⟩
        simp only [except_bind_ok, except_bind_error, hf, h0, h1]

/-- If any course makes every possible conversion fail, the whole
canonicalization pass fails and emits no document. -/
theorem canonicalize_error_of_course (st : StateSerializable) {c : Course}
    (hc : c ∈ st.courses)
    (h : ∀ idx, buildIndex st.small_groups = .ok idx →
      ∃ e, convertCourse idx c = .error e) :
    ∃ e, canonicalize st = .error e := by
  unfold canonicalize
  cases hb : buildIndex st.small_groups with
  | error e => exact ⟨e, rfl⟩
  | ok idx =>
    obtain ⟨e, he⟩ := h idx hb
    obtain ⟨e', he'⟩ := exceptMapM_error_of_mem (convertCourse idx) hc he
    refine ⟨e', ?_⟩
    simp only [except_bind_ok, he', except_bind_error]

/-- Characterization of a successful course conversion: the cid is the
first line of the last path fragment, a `"|"`, and the first two hex
characters of the SHA-256 fingerprint of title and instructors; the name
is the second line. -/
theorem convertCourse_ok_spec {idx : List (String × PaulineSmallGroup)}
    {c : Course} {pc : PaulineCourse} (h : convertCourse idx c = .ok pc) :
    ∃ frag l0 l1, c.path.fragments.getLast? = some frag ∧
      (rustLines frag)[0]? = some l0 ∧ (rustLines frag)[1]? = some l1 ∧
      pc.name = l1 ∧
      pc.cid = l0 ++ "|" ++ String.mk ((sha256Hex (l1 ++ c.instructors)).data.take 2) ∧
      pc.description = some "" ∧ pc.ou = c.ou ∧ pc.instructors = some c.instructors := by
  unfold convertCourse at h
  cases ha : c.appointments.mapM convert_appointment with
  | error e =>
    simp only [ha, except_bind_error] at h
    exact Except.noConfusion h
  | ok appts =>
    simp only [ha, except_bind_ok] at h
    cases hr : resolveRefs idx c.small_groups with
    | error e =>
      simp only [hr, except_bind_error] at h
      exact Except.noConfusion h
    | ok sgs =>
      simp only [hr, except_bind_ok] at h
      cases hf : c.path.fragments.getLast? with
      | none =>
        simp only [hf, except_bind_error] at h
        exact Except.noConfusion h
      | some frag =>
        simp only [hf, except_bind_ok] at h
        cases h0 : (rustLines frag)[0]? with
        | none =>
          simp only [h0, except_bind_error] at h
          exact Except.noConfusion h
        | some l0 =>
          simp only [h0, except_bind_ok] at h
          cases h1 : (rustLines frag)[1]? with
          | none =>
            simp only [h1, except_bind_error] at h
            exact Except.noConfusion h
          | some l1 =>
            simp only [h1, except_bind_ok] at h
            cases h
            exact ⟨frag, l0, l1, rfl, h0, h1, rfl, rfl, rfl, rfl, rfl⟩

/-- Inversion of a successful traversal of a cons. -/
theorem exceptMapM_cons_inv {ε α β : Type} {f : α → Except ε β} {a : α}
    {l : List α} {bs : List β} (h : (a :: l).mapM f = .ok bs) :
    ∃ b bl, f a = .ok b ∧ l.mapM f = .ok bl ∧ bs = b :: bl := by
  rw [List.mapM_cons] at h
  cases ha : f a with
  | error e =>
    rw [ha, except_bind_error] at h
    cases h
  | ok b =>
    rw [ha, except_bind_ok] at h
    cases hl : l.mapM f with
    | error e =>
      rw [hl, except_bind_error] at h
      cases h
    | ok bl =>
      rw [hl, except_bind_ok, except_pure_eq] at h
      cases h
      exact ⟨b, bl, rfl, rfl, rfl⟩

/-- Every binding of the built index carries the url of a snapshot
small group. -/
theorem buildIndex_keys : ∀ {sgs : List SmallGroup}
    {idx : List (String × PaulineSmallGroup)}, buildIndex sgs = .ok idx →
    ∀ kv ∈ idx, ∃ g ∈ sgs, kv.1 = g.url := by
  intro sgs
  induction sgs with
  | nil =>
    intro idx h kv hkv
    cases h
    cases hkv
  | cons g sgs ih =>
    intro idx h kv hkv
    obtain ⟨b, bl, hb, hbl, rfl⟩ := exceptMapM_cons_inv h
    have hb1 : b.1 = g.url := by
      cases hc : convert_small_group g with
      | error e => rw [hc] at hb; cases hb
      | ok p =>
        rw [hc] at hb
        cases hb
        rfl
    rcases List.mem_cons.mp hkv with rfl | hkv
    · exact ⟨g, List.mem_cons_self _ _, hb1⟩
    · obtain ⟨g', hg', he⟩ := ih hbl kv hkv
      exact ⟨g', List.mem_cons_of_mem _ hg', he⟩

/-! ## Concrete crawl snapshots used as counterexamples and witnesses -/

/-- A course whose last path fragment splits into code `"A"` and
title `"B"`, with empty instructors, no ou, and no references. -/
def exCourseAB : Course := ⟨⟨["A\nB"]⟩, "", none, [], []⟩

/-- The converted form of `exCourseAB` with its bare provisional id;
`"df"` is the first two hex characters of `SHA-256("B")`. -/
def exCourseOut : PaulineCourse := ⟨"A|df", "B", some "", none, some "", [], []⟩

/-- A fixed crawl start timestamp. -/
def exTime : UtcTime := ⟨2023, 1, 1, 0, 0, 0⟩

/-- A small group at url `"u"` named `"G1"`. -/
def exSgA : SmallGroup := ⟨"u", ⟨["G1"]⟩, []⟩

/-- A different small group at the same url `"u"`, named `"G2"`. -/
def exSgB : SmallGroup := ⟨"u", ⟨["G2"]⟩, []⟩

/-- A converted course under key `"k"` (for determinism witnesses). -/
def exPC1 : PaulineCourse := ⟨"k1", "N1", some "", none, some "", [], []⟩

/-- A second converted course under a different key. -/
def exPC2 : PaulineCourse := ⟨"k2", "N2", some "", none, some "", [], []⟩

/-! ## Claim theorems -/

/-- C4 counterexample: two distinct `SmallGroup` records sharing the url
`"u"` do NOT make canonicalization fail — it succeeds and produces an
output document, refuting the claim that a duplicate small-group url is
fatal while building the index. -/
theorem c4_duplicate_url_counterexample :
    exSgA ≠ exSgB ∧ exSgA.url = exSgB.url ∧
    canonicalize ⟨"S", exTime, [], [exSgA, exSgB]⟩ =
      .ok ⟨"S", "2023-01-01T00:00:00", []⟩ := by
  refine ⟨by decide, rfl, ?_⟩
  rfl

/-- C4 (amended): building the url-keyed small-group index never fails on
duplicate urls; the duplicate is resolved silently, the record occurring
last in the snapshot's `small_groups` list winning (`HashMap` collect
semantics): if `sg` is the last record with its url, the index maps that
url to `sg`'s conversion. -/
theorem duplicate_url_last_wins (pre post : List SmallGroup) (sg : SmallGroup)
    (idx : List (String × PaulineSmallGroup)) (p : PaulineSmallGroup)
    (hb : buildIndex (pre ++ sg :: post) = .ok idx)
    (hpost : ∀ g ∈ post, g.url ≠ sg.url)
    (hc : convert_small_group sg = .ok p) :
    lookupIdx idx sg.url = some p := by
  unfold buildIndex at hb
  obtain ⟨b₁, b₂, h₁, h₂, rfl⟩ := exceptMapM_append_inv hb
  obtain ⟨b, bl, hbv, hbl, rfl⟩ := exceptMapM_cons_inv h₂
  rw [hc] at hbv
  cases hbv
  unfold lookupIdx
  rw [List.reverse_append, List.reverse_cons, List.append_assoc,
    List.find?_append]
  have hnone : bl.reverse.find? (fun kv => kv.1 == sg.url) = none := by
    rw [List.find?_eq_none]
    intro kv hkv
    have hkv' : kv ∈ bl := List.mem_reverse.mp hkv
    obtain ⟨g, hg, he⟩ := buildIndex_keys hbl kv hkv'
    simp only [beq_iff_eq, he]
    exact hpost g hg
  rw [hnone]
  simp only [Option.none_or]
  rw [List.cons_append, List.find?_cons_of_pos _ (by simp)]
  rfl

/-- C4 witness: on the concrete duplicate-url snapshot, the index maps
`"u"` to the conversion of the later record `exSgB`. -/
theorem duplicate_url_last_wins_witness :
    buildIndex [exSgA, exSgB] = .ok [("u", ⟨"G1", []⟩), ("u", ⟨"G2", []⟩)] ∧
    (∀ g ∈ ([] : List SmallGroup), g.url ≠ exSgB.url) ∧
    convert_small_group exSgB = .ok ⟨"G2", []⟩ ∧
    lookupIdx [("u", ⟨"G1", []⟩), ("u", ⟨"G2", []⟩)] "u" = some ⟨"G2", []⟩ := by
  refine ⟨by rfl, by simp, by rfl, ?_⟩
  exact duplicate_url_last_wins [exSgA] [] exSgB _ _ (by rfl) (by simp) (by rfl)

/-- C5: a raw course whose `small_groups` entry resolves to nothing in the
index makes the whole canonicalization fail with an error (no
`SemesterDocument` is emitted); and when every reference resolves, the
resolution step succeeds, so this failure branch is never taken. -/
theorem unresolved_reference_fatal :
    (∀ (st : StateSerializable) (idx : List (String × PaulineSmallGroup))
        (c : Course) (u : String),
        buildIndex st.small_groups = .ok idx → c ∈ st.courses →
        u ∈ c.small_groups → lookupIdx idx u = none →
        ∃ e, canonicalize st = .error e) ∧
    (∀ (idx : List (String × PaulineSmallGroup)) (urls : List String),
        (∀ u ∈ urls, ∃ p, lookupIdx idx u = some p) →
        ∃ ps, resolveRefs idx urls = .ok ps) := by
  constructor
  · intro st idx c u hb hc hu hl
    apply canonicalize_error_of_course st hc
    intro idx' hb'
    rw [hb] at hb'
    cases hb'
    exact convertCourse_error_of_unresolved idx c hu hl
  · intro idx urls h
    unfold resolveRefs
    apply exceptMapM_ok_of_forall
    intro u hu
    obtain ⟨p, hp⟩ := h u hu
    exact ⟨p, by simp only [hp]⟩

/-- C5 witness: a concrete snapshot with a dangling `"missing"` reference
fails, and a concrete fully-resolved reference list resolves. -/
theorem unresolved_reference_fatal_witness :
    (∃ e, canonicalize ⟨"S", exTime, [⟨⟨["A\nB"]⟩, "", none, [], ["missing"]⟩], []⟩ =
      .error e) ∧
    (∃ ps, resolveRefs [("u", ⟨"G2", []⟩)] ["u"] = .ok ps) := by
  constructor
  · exact unresolved_reference_fatal.1 _ [] _ "missing" rfl
      (List.mem_singleton.mpr rfl) (List.mem_singleton.mpr rfl) rfl
  · refine unresolved_reference_fatal.2 _ _ ?_
    intro u hu
    rw [List.mem_singleton.mp hu]
    exact ⟨⟨"G2", []⟩, rfl⟩

/-- C8: the appointment time normalization maps the date
`"Mo 02. Okt. 2023"` with time `"24:00"` to `"2023-10-02T23:59:00"`;
the month table sends both `"Mrz"` and `"Mär"` to month 3; and for every
date string, the literal time `"24:00"` is replaced by `"23:59"` before
formatting. -/
theorem convert_time_spec :
    convert_time "Mo 02. Okt. 2023" "24:00" = some "2023-10-02T23:59:00" ∧
    monthOfToken "Mrz" = some 3 ∧ monthOfToken "Mär" = some 3 ∧
    (∀ d t : String, t = "24:00" → convert_time d t = convert_time d "23:59") := by
  refine ⟨by decide, by decide, by decide, ?_⟩
  intro d t ht
  subst ht
  unfold convert_time
  rw [if_pos rfl, if_neg (by decide : ¬("23:59" : String) = "24:00")]

/-- C8 witness: instantiating the `"24:00"` rewrite rule on the concrete
date of the claim. -/
theorem convert_time_spec_witness :
    convert_time "Mo 02. Okt. 2023" "24:00" =
      convert_time "Mo 02. Okt. 2023" "23:59" :=
  convert_time_spec.2.2.2 "Mo 02. Okt. 2023" "24:00" rfl

/-- Sorting a correctly-ordered pair is the identity. -/
theorem sortC_pair {a b : PaulineCourse} (h : courseLE a b) :
    sortC [a, b] = [a, b] := by
  simp [sortC, List.insertionSort, List.orderedInsert, h]

/-- Rank assignment on a pair produces the `:0` and `:1` suffixes. -/
theorem rankCids_pair (k : String) (a b : PaulineCourse) :
    rankCids k [a, b] =
      [{ a with cid := k ++ ":0" }, { b with cid := k ++ ":1" }] := by
  unfold rankCids
  have h0 : k ++ ":" ++ toString (0 : Nat) = k ++ ":0" := by
    rw [String.append_assoc]
    rfl
  have h1 : k ++ ":" ++ toString (1 : Nat) = k ++ ":1" := by
    rw [String.append_assoc]
    rfl
  simp [List.enum, List.enumFrom, h0, h1]

/-- C3 counterexample: a snapshot holding two value-identical raw courses
(which necessarily share the provisional id `"A|df"`) yields a single
canonical course carrying the bare provisional id — not two courses with
`:0` and `:1` rank suffixes as the claim states. -/
theorem c3_duplicate_id_counterexample :
    canonicalize ⟨"S", exTime, [exCourseAB, exCourseAB], []⟩ =
      .ok ⟨"S", "2023-01-01T00:00:00", [exCourseOut]⟩ ∧
    exCourseOut.cid = "A|df" := by
  exact ⟨rfl, rfl⟩

/-- C3 (amended): a successful course conversion forms the provisional id
as the fragment's first line, `"|"`, and the first two hex characters of
`SHA-256(title ++ instructors)`; in the grouping pass, a key whose group
is a singleton keeps its record (bare id) unchanged, and a key whose group
holds two distinct records gives them `:0`/`:1` ids in full-record order.
Value-identical raw courses are collapsed by the `HashSet` before
grouping, so an exact-duplicate pair produces one bare-id course. -/
theorem canonical_id_assignment :
    (∀ (idx : List (String × PaulineSmallGroup)) (c : Course) (pc : PaulineCourse),
        convertCourse idx c = .ok pc →
        ∃ frag l0 l1, c.path.fragments.getLast? = some frag ∧
          (rustLines frag)[0]? = some l0 ∧ (rustLines frag)[1]? = some l1 ∧
          pc.cid = l0 ++ "|" ++
            String.mk ((sha256Hex (l1 ++ c.instructors)).data.take 2)) ∧
    (∀ (s : List PaulineCourse) (k : String) (a : PaulineCourse),
        s.filter (fun c => c.cid == k) = [a] → a ∈ canonicalizeWith s) ∧
    (∀ (s : List PaulineCourse) (k : String) (a b : PaulineCourse),
        s.filter (fun c => c.cid == k) = [a, b] → courseLE a b →
        { a with cid := k ++ ":0" } ∈ canonicalizeWith s ∧
        { b with cid := k ++ ":1" } ∈ canonicalizeWith s) := by
  refine ⟨?_, ?_, ?_⟩
  · intro idx c pc h
    obtain ⟨frag, l0, l1, hf, h0, h1, _, hcid, _⟩ := convertCourse_ok_spec h
    exact ⟨frag, l0, l1, hf, h0, h1, hcid⟩
  · intro s k a hfilt
    have ha : a ∈ s.filter (fun c => c.cid == k) := by
      rw [hfilt]
      exact List.mem_singleton.mpr rfl
    have hak : a.cid = k := by
      have := (List.mem_filter.mp ha).2
      simpa using this
    have hk : k ∈ keyList s :=
      mem_keyList.mpr ⟨a, (List.mem_filter.mp ha).1, hak⟩
    rw [canonicalizeWith_eq_spec]
    unfold canonicalizeSpec
    rw [List.mem_flatMap]
    refine ⟨k, hk, ?_⟩
    rw [hfilt]
    unfold groupFinal
    simp
  · intro s k a b hfilt hab
    have hmem : ∀ x, x ∈ s.filter (fun c => c.cid == k) → x ∈ s ∧ x.cid = k := by
      intro x hx
      have := List.mem_filter.mp hx
      exact ⟨this.1, by simpa using this.2⟩
    have ha := hmem a (by rw [hfilt]; exact List.mem_cons_self _ _)
    have hb := hmem b (by rw [hfilt]; exact List.mem_cons_of_mem _ (List.mem_singleton.mpr rfl))
    have hk : k ∈ keyList s := mem_keyList.mpr ⟨a, ha.1, ha.2⟩
    have hgroup : groupFinal k (s.filter fun c => c.cid == k) =
        [{ a with cid := k ++ ":0" }, { b with cid := k ++ ":1" }] := by
      rw [hfilt]
      unfold groupFinal
      rw [if_neg (by simp)]
      have hmap : [a, b].map (resetCid k) = [a, b] := by
        simp [resetCid_self ha.2, resetCid_self hb.2]
      rw [hmap, sortC_pair hab, rankCids_pair]
    constructor
    · rw [canonicalizeWith_eq_spec]
      unfold canonicalizeSpec
      rw [List.mem_flatMap]
      exact ⟨k, hk, by rw [hgroup]; exact List.mem_cons_self _ _⟩
    · rw [canonicalizeWith_eq_spec]
      unfold canonicalizeSpec
      rw [List.mem_flatMap]
      exact ⟨k, hk, by
        rw [hgroup]
        exact List.mem_cons_of_mem _ (List.mem_singleton.mpr rfl)⟩

/-- Two distinct converted courses sharing the key `"k"` (C3 witness data). -/
def exPCk1 : PaulineCourse := ⟨"k", "N1", some "", none, some "", [], []⟩

/-- The second record of the `"k"` group (C3 witness data). -/
def exPCk2 : PaulineCourse := ⟨"k", "N2", some "", none, some "", [], []⟩

/-- C3 witness: with two distinct records sharing key `"k"`, the grouping
pass emits them with `:0` and `:1` suffixes in record order. -/
theorem canonical_id_assignment_witness :
    ([exPCk1, exPCk2].filter (fun c => c.cid == "k") = [exPCk1, exPCk2]) ∧
    courseLE exPCk1 exPCk2 ∧
    ({ exPCk1 with cid := "k" ++ ":0" } ∈ canonicalizeWith [exPCk1, exPCk2] ∧
     { exPCk2 with cid := "k" ++ ":1" } ∈ canonicalizeWith [exPCk1, exPCk2]) := by
  refine ⟨by decide, by decide, ?_⟩
  exact canonical_id_assignment.2.2 [exPCk1, exPCk2] "k" exPCk1 exPCk2
    (by decide) (by decide)

/-- C6: canonicalization is deterministic — the grouping pass applied to
any two enumerations of the deduplicated course set (any two iteration
orders of the `HashSet`) produces the same course collection as a
multiset, hence byte-identical id assignments on the same records. -/
theorem canonicalize_deterministic :
    ∀ s s' : List PaulineCourse, s.Perm s' →
      (canonicalizeWith s).Perm (canonicalizeWith s') := by
  intro s s' h
  rw [canonicalizeWith_eq_spec, canonicalizeWith_eq_spec]
  exact canonicalizeSpec_perm h

/-- C6 witness: the two orders of a concrete two-course set canonicalize
to the same collection. -/
theorem canonicalize_deterministic_witness :
    ([exPC1, exPC2].Perm [exPC2, exPC1]) ∧
    (canonicalizeWith [exPC1, exPC2]).Perm (canonicalizeWith [exPC2, exPC1]) :=
  ⟨List.Perm.swap exPC2 exPC1 [],
   canonicalize_deterministic _ _ (List.Perm.swap exPC2 exPC1 [])⟩

/-- C7: pushing N entries onto a fresh queue and popping N times — under
every sequence of random index choices — returns exactly the pushed
entries (a permutation, nothing lost or duplicated), leaves the queue
empty, and any further pop returns `none`. -/
theorem queue_pop_permutation :
    ∀ (pushed : List QueueEntry) (is : List Nat), is.length = pushed.length →
      (queuePopMany (queuePushAll [] pushed) is).1.Perm pushed ∧
      (queuePopMany (queuePushAll [] pushed) is).2 = [] ∧
      ∀ j, queuePop (queuePopMany (queuePushAll [] pushed) is).2 j = none := by
  intro pushed is hlen
  rw [queuePushAll_nil]
  obtain ⟨h1, h2⟩ := queuePopMany_drain is pushed hlen
  refine ⟨h1, h2, fun j => ?_⟩
  rw [h2]
  rfl

/-- C7 witness: two pushes and two pops with the random choices 1 and 0
drain the queue and return both entries. -/
theorem queue_pop_permutation_witness :
    (([1, 0] : List Nat).length =
      [QueueEntry.main, QueueEntry.tree "u" ⟨["x"]⟩].length) ∧
    (queuePopMany (queuePushAll [] [QueueEntry.main, QueueEntry.tree "u" ⟨["x"]⟩])
        [1, 0]).1.Perm [QueueEntry.main, QueueEntry.tree "u" ⟨["x"]⟩] ∧
    (queuePopMany (queuePushAll [] [QueueEntry.main, QueueEntry.tree "u" ⟨["x"]⟩])
        [1, 0]).2 = [] ∧
    ∀ j, queuePop (queuePopMany
        (queuePushAll [] [QueueEntry.main, QueueEntry.tree "u" ⟨["x"]⟩]) [1, 0]).2 j =
      none := by
  refine ⟨by decide, ?_⟩
  exact queue_pop_permutation [QueueEntry.main, QueueEntry.tree "u" ⟨["x"]⟩]
    [1, 0] (by decide)

/-- C9: a raw course whose last path fragment has fewer than two lines
makes canonicalization fail fatally with no output document; a course
that converts successfully takes its code from the fragment's first line
and its name from the second line. -/
theorem short_fragment_fatal :
    (∀ (st : StateSerializable) (c : Course) (frag : String),
        c ∈ st.courses → c.path.fragments.getLast? = some frag →
        (rustLines frag).length < 2 → ∃ e, canonicalize st = .error e) ∧
    (∀ (idx : List (String × PaulineSmallGroup)) (c : Course) (pc : PaulineCourse),
        convertCourse idx c = .ok pc →
        ∃ frag l0 l1, c.path.fragments.getLast? = some frag ∧
          (rustLines frag)[0]? = some l0 ∧ (rustLines frag)[1]? = some l1 ∧
          pc.name = l1 ∧ ∃ suffix, pc.cid = l0 ++ "|" ++ suffix) := by
  constructor
  · intro st c frag hc hf hl
    exact canonicalize_error_of_course st hc fun idx _ =>
      convertCourse_error_of_short idx c hf hl
  · intro idx c pc h
    obtain ⟨frag, l0, l1, hf, h0, h1, hname, hcid, _⟩ := convertCourse_ok_spec h
    exact ⟨frag, l0, l1, hf, h0, h1, hname, _, hcid⟩

/-- C9 witness: a concrete snapshot with a one-line fragment fails, and
the concrete two-line course splits into code `"A"` and name `"B"`. -/
theorem short_fragment_fatal_witness :
    (∃ e, canonicalize ⟨"S", exTime, [⟨⟨["OnlyOneLine"]⟩, "", none, [], []⟩], []⟩ =
      .error e) ∧
    (∃ frag l0 l1, exCourseAB.path.fragments.getLast? = some frag ∧
      (rustLines frag)[0]? = some l0 ∧ (rustLines frag)[1]? = some l1 ∧
      exCourseOut.name = l1 ∧ ∃ suffix, exCourseOut.cid = l0 ++ "|" ++ suffix) := by
  constructor
  · exact short_fragment_fatal.1 _ _ "OnlyOneLine" (List.mem_singleton.mpr rfl)
      rfl (by decide)
  · exact short_fragment_fatal.2 [] exCourseAB exCourseOut rfl

/-- C10: appending an exact duplicate of a raw course already in the
snapshot leaves the canonical output unchanged (same name, same created
stamp, same course collection as a multiset): the duplicate collapses in
the `HashSet` before id disambiguation, so the pair yields one course
with the bare provisional id, not two rank-suffixed courses. -/
theorem duplicate_course_collapses :
    ∀ (st : StateSerializable) (c : Course) (sem : Semester),
      c ∈ st.courses → canonicalize st = .ok sem →
      ∃ sem', canonicalize { st with courses := st.courses ++ [c] } = .ok sem' ∧
        sem'.name = sem.name ∧ sem'.created = sem.created ∧
        sem'.courses.Perm sem.courses := by
  intro st c sem hc hok
  unfold canonicalize at hok ⊢
  dsimp only at hok ⊢
  cases hb : buildIndex st.small_groups with
  | error e =>
    simp only [hb, except_bind_error] at hok
    exact Except.noConfusion hok
  | ok idx =>
    simp only [hb, except_bind_ok] at hok ⊢
    cases hm : st.courses.mapM (convertCourse idx) with
    | error e =>
      simp only [hm, except_bind_error] at hok
      exact Except.noConfusion hok
    | ok converted =>
      simp only [hm, except_bind_ok, except_pure_eq] at hok
      cases hok
      obtain ⟨pc, hpc, hpcmem⟩ := exceptMapM_ok_mem hm hc
      have hc1 : ([c].mapM (convertCourse idx) : Except CanonErr _) = .ok [pc] := by
        rw [List.mapM_cons, hpc, except_bind_ok, List.mapM_nil]
        rfl
      have hm2 : (st.courses ++ [c]).mapM (convertCourse idx) =
          .ok (converted ++ [pc]) := exceptMapM_append_ok hm hc1
      simp only [hm2, except_bind_ok, except_pure_eq]
      refine ⟨_, rfl, rfl, rfl, ?_⟩
      rw [canonicalizeWith_eq_spec, canonicalizeWith_eq_spec]
      apply canonicalizeSpec_perm
      rw [List.perm_ext_iff_of_nodup (List.nodup_dedup _) (List.nodup_dedup _)]
      intro x
      simp only [List.mem_dedup, List.mem_append, List.mem_singleton]
      constructor
      · rintro (hx | rfl)
        · exact hx
        · exact hpcmem
      · exact fun hx => Or.inl hx

/-- C10 witness: duplicating the concrete course `exCourseAB` leaves the
canonical output unchanged up to permutation. -/
theorem duplicate_course_collapses_witness :
    canonicalize ⟨"S", exTime, [exCourseAB], []⟩ =
      .ok ⟨"S", "2023-01-01T00:00:00", [exCourseOut]⟩ ∧
    (∃ sem', canonicalize ⟨"S", exTime, [exCourseAB, exCourseAB], []⟩ = .ok sem' ∧
      sem'.name = "S" ∧ sem'.created = "2023-01-01T00:00:00" ∧
      sem'.courses.Perm [exCourseOut]) := by
  refine ⟨rfl, ?_⟩
  exact duplicate_course_collapses ⟨"S", exTime, [exCourseAB], []⟩ exCourseAB
    ⟨"S", "2023-01-01T00:00:00", [exCourseOut]⟩ (List.mem_singleton.mpr rfl) rfl

/-- C2 (code bug): the `Tree` handler enqueues at most the first two
branch links — the `branches.into_iter().take(2)` left in at line 264 —
so with three returned branches the third is dropped, while every course
leaf is enqueued; the enqueued count is `min 2 branches + courses`. -/
theorem tree_handler_branch_truncation :
    (∀ branches courses : List (Url × Path),
        (treeEnqueues branches courses).length =
          min 2 branches.length + courses.length) ∧
    treeEnqueues [("u1", Path.new), ("u2", Path.new), ("u3", Path.new)]
        [("c1", Path.new)] =
      [QueueEntry.tree "u1" Path.new, QueueEntry.tree "u2" Path.new,
       QueueEntry.courseLeaf "c1" Path.new] ∧
    QueueEntry.tree "u3" Path.new ∉
      treeEnqueues [("u1", Path.new), ("u2", Path.new), ("u3", Path.new)]
        [("c1", Path.new)] := by
  refine ⟨?_, by decide, by decide⟩
  intro bs cs
  simp [treeEnqueues]

/-- C1 (code bug): because `handle_entry` increments `running_tasks`
inside the spawned task (lines 229-232) rather than before the spawn,
there is a reachable interleaving in which the event loop pops the last
entry, spawns its handler, and on the next tick observes an empty queue
with a zero in-flight counter and halts — while the dispatched handler
has not yet run, its nonempty discoveries never enqueued. -/
theorem scheduler_premature_halt :
    ∃ (disc : QueueEntry → List QueueEntry) (recs : QueueEntry → Nat)
      (s : SchedState),
      SchedReach disc recs schedInit s ∧ s.halted = true ∧ s.queue = [] ∧
      s.running = 0 ∧
      ∃ t ∈ s.tasks, t.phase = HandlerPhase.beforeInc ∧ disc t.entry ≠ [] := by
  refine ⟨fun _ => [QueueEntry.tree "u" ⟨["x"]⟩], fun _ => 1,
    ⟨[], 0, [⟨QueueEntry.main, HandlerPhase.beforeInc⟩], 0, true⟩, ?_, rfl, rfl,
    rfl, ⟨QueueEntry.main, HandlerPhase.beforeInc⟩,
    List.mem_singleton.mpr rfl, rfl, by simp⟩
  have step1 : SchedStep (fun _ => [QueueEntry.tree "u" ⟨["x"]⟩]) (fun _ => 1)
      schedInit ⟨[], 0, [⟨QueueEntry.main, HandlerPhase.beforeInc⟩], 0, false⟩ :=
    SchedStep.dispatch schedInit 0 QueueEntry.main [] rfl rfl
  have step2 : SchedStep (fun _ => [QueueEntry.tree "u" ⟨["x"]⟩]) (fun _ => 1)
      ⟨[], 0, [⟨QueueEntry.main, HandlerPhase.beforeInc⟩], 0, false⟩
      ⟨[], 0, [⟨QueueEntry.main, HandlerPhase.beforeInc⟩], 0, true⟩ :=
    SchedStep.haltCheck _ rfl rfl rfl
  exact Relation.ReflTransGen.tail (Relation.ReflTransGen.single step1) step2

end Paul
